import Mathlib

/-!
Verification of the routing and dispatch core of the `drift` HTTP framework.

The definitions below are a shallow embedding of the Go sources:
  * `tree.go`       — radix-tree route registration (`addRoute`, `insertChild`,
                      `incrementChildPrio`) and lookup (`getValue`);
  * `router.go`     — `joinPaths`;
  * the `Context`   — cursor-driven handler chain (`Next`, `Abort`) and the
                      per-request state reset done in `ServeHTTP`/`handleRequest`.

Go strings are modelled as `List Char` (byte strings of the path grammar are
ASCII).  Go `panic` is modelled by `Except.error` carrying the panic message.
Handler chains are opaque: a chain is a list of handler identifiers (`Nat`);
`nil` versus non-`nil` Go slices is `Option`.  Recursive loops of the source
are modelled with an explicit fuel argument (the top-level wrappers supply
fuel that is ample for every reachable execution), so every definition is
executable by the kernel.
-/

namespace Drift

abbrev Str := List Char
abbrev Chain := List Nat
abbrev Params := List (Str × Str)

/-- `nodeType` from tree.go. -/
inductive NodeType where
  | static
  | param
  | catchAll
  deriving DecidableEq, Repr

/-- `node` from tree.go: path fragment, first-byte indices, children, optional
bound handler chain, priority, kind tag, wildcard-child flag, full pattern. -/
inductive Node where
  | mk (path : Str) (indices : Str) (children : List Node)
       (handlers : Option Chain) (priority : Nat) (nType : NodeType)
       (wildChild : Bool) (fullPath : Str)

namespace Node

def path : Node → Str
  | .mk p _ _ _ _ _ _ _ => p

def indices : Node → Str
  | .mk _ i _ _ _ _ _ _ => i

def children : Node → List Node
  | .mk _ _ c _ _ _ _ _ => c

def handlers : Node → Option Chain
  | .mk _ _ _ h _ _ _ _ => h

def priority : Node → Nat
  | .mk _ _ _ _ p _ _ _ => p

def nType : Node → NodeType
  | .mk _ _ _ _ _ t _ _ => t

def wildChild : Node → Bool
  | .mk _ _ _ _ _ _ w _ => w

def fullPath : Node → Str
  | .mk _ _ _ _ _ _ _ f => f

end Node

/-- The zero-value `&node{}` (fresh tree root; also the out-of-range default,
never reached on well-formed trees). -/
def nilNode : Node := .mk [] [] [] none 0 .static false []

mutual

/-- Number of nodes of a tree; used only to compute ample fuel. -/
def nsize : Node → Nat
  | .mk _ _ cs _ _ _ _ _ => 1 + nsizeL cs

/-- Total number of nodes of a list of trees. -/
def nsizeL : List Node → Nat
  | [] => 0
  | c :: cs => nsize c + nsizeL cs

end

/-- `longestCommonPrefix` from tree.go. -/
def commonPrefixLen : Str → Str → Nat
  | a :: as, b :: bs => if a = b then commonPrefixLen as bs + 1 else 0
  | _, _ => 0

/-- Inner loop of `findWildcard`: scan the characters after the sigil up to the
next separator, and check no further sigil occurs there. -/
def wildcardScan : Str → Str × Bool
  | [] => ([], true)
  | c :: cs =>
    if c = '/' then ([], true)
    else
      let r := wildcardScan cs
      (c :: r.1, r.2 && !(c = ':' || c = '*'))

/-- `findWildcard` from tree.go: first wildcard segment, its start index and
its validity (`none` replaces Go's `i = -1`). -/
def findWildcard : Str → Option (Str × Nat × Bool)
  | [] => none
  | c :: cs =>
    if c = ':' || c = '*' then
      let r := wildcardScan cs
      some (c :: r.1, 0, r.2)
    else
      match findWildcard cs with
      | some (w, i, v) => some (w, i + 1, v)
      | none => none

/-- Go map assignment `params[k] = v` on the association-list model. -/
def setParam : Params → Str → Str → Params
  | [], k, v => [(k, v)]
  | (k', v') :: rest, k, v =>
    if k' = k then (k, v) :: rest else (k', v') :: setParam rest k v

/-- Position of the first occurrence of `c` in `indices` (the
`for i, c := range []byte(n.indices)` scans of tree.go). -/
def charIdx : Str → Char → Option Nat
  | [], _ => none
  | c :: cs, x => if c = x then some 0 else (charIdx cs x).map (· + 1)

/-- `n.priority++`. -/
def bumpPrio : Node → Node
  | .mk p i c h pr t w f => .mk p i c h (pr + 1) t w f

/-- `incrementChildPrio` from tree.go.  The source bumps the child at `pos`,
then repeatedly swaps it with its left neighbour while that neighbour's
priority is smaller, and applies the identical rearrangement to the index
string.  The indices and children are rearranged here through their zip, which
coincides with the source whenever `|indices| = |children|` (an invariant of
every reachable tree). -/
def incrementChildPrio (n : Node) (pos : Nat) : Node × Nat :=
  let zs := n.indices.zip n.children
  match zs[pos]? with
  | none => (n, pos)
  | some (c, ch) =>
    let ch' := bumpPrio ch
    let prio := ch'.priority
    let front := zs.take pos
    let back := zs.drop (pos + 1)
    let movedRev := front.reverse.takeWhile (fun q => q.2.priority < prio)
    let keepRev := front.reverse.dropWhile (fun q => q.2.priority < prio)
    let newPos := keepRev.length
    let zs' := keepRev.reverse ++ (c, ch') :: (movedRev.reverse ++ back)
    (.mk n.path (zs'.map Prod.fst) (zs'.map Prod.snd) n.handlers n.priority n.nType
      n.wildChild n.fullPath, newPos)

/-- `insertChild` from tree.go (fueled; the loop re-enters only in the
named-parameter branch when pattern continuation remains). -/
def insertChildGo : Nat → Node → Str → Str → Chain → Except String Node
  | 0, _, _, _, _ => .error "insufficient fuel"
  | fuel + 1, n, path, fullPath, handlers =>
    match findWildcard path with
    | none =>
      -- no wildcard: simply store path and handlers on this node
      match n with
      | .mk _ nidx ncs _ npr nt nw _ =>
        .ok (.mk path nidx ncs (some handlers) npr nt nw fullPath)
    | some (wc, i, valid) =>
      if valid = false then .error "only one wildcard per path segment is allowed"
      else if wc.length < 2 then .error "wildcards must be named with a non-empty name"
      else if 0 < n.children.length then .error "wildcard segment conflicts with existing children"
      else if wc.headD ' ' = ':' then
        -- param
        let n1 := if 0 < i then
            match n with
            | .mk _ nidx ncs nh npr nt nw nf => Node.mk (path.take i) nidx ncs nh npr nt nw nf
          else n
        let path1 := path.drop i
        if wc.length < path1.length then
          let path2 := path1.drop wc.length
          match insertChildGo fuel (.mk [] [] [] none 1 .static false fullPath) path2 fullPath handlers with
          | .ok g =>
            match n1 with
            | .mk p1 i1 _ h1 pr1 t1 _ f1 =>
              .ok (.mk p1 i1 [.mk wc [] [g] none 1 .param false fullPath] h1 pr1 t1 true f1)
          | .error e => .error e
        else
          match n1 with
          | .mk p1 i1 _ h1 pr1 t1 _ f1 =>
            .ok (.mk p1 i1 [.mk wc [] [] (some handlers) 1 .param false fullPath] h1 pr1 t1 true f1)
      else
        -- catchAll
        if i + wc.length ≠ path.length then
          .error "catch-all routes are only allowed at the end of the path"
        else if n.path ≠ [] ∧ n.path.getLast? = some '/' then
          .error "catch-all conflicts with existing handle for the path segment root"
        else if i = 0 then
          -- Go decrements i to -1 and indexes the string: runtime panic
          .error "runtime error: index out of range"
        else if path.getD (i - 1) ' ' ≠ '/' then
          .error "no / before catch-all"
        else
          let i1 := i - 1
          let c2 := Node.mk (path.drop i1) [] [] (some handlers) 1 .catchAll false fullPath
          let c1 := Node.mk [] [] [c2] none 1 .catchAll true fullPath
          match n with
          | .mk _ _ _ nh npr nt nw nf =>
            .ok (.mk (path.take i1) ['/'] [c1] nh npr nt nw nf)

/-- `insertChild` with ample fuel (each re-entry consumes at least two
characters of the remaining pattern). -/
def insertChild (n : Node) (path fullPath : Str) (handlers : Chain) : Except String Node :=
  insertChildGo (path.length + 1) n path fullPath handlers

/-- The edge split of `addRoute` (tree.go lines 44-62). -/
def splitNode (n : Node) (path : Str) (i : Nat) (pfpi : Nat) (fullPath : Str) : Node :=
  match n with
  | .mk np nidx ncs nh npr nt nw nf =>
    let child := Node.mk (np.drop i) nidx ncs nh (npr - 1) .static nw nf
    Node.mk (path.take i) [np.getD i ' '] [child] none npr nt false (fullPath.take (pfpi + i))

/-- The `walk` loop of `addRoute` from tree.go (fueled). `pfpi` is
`parentFullPathIndex`. -/
def addRouteWalk : Nat → Node → Str → Nat → Str → Chain → Except String Node
  | 0, _, _, _, _, _ => .error "insufficient fuel"
  | fuel + 1, n, path, pfpi, fullPath, handlers =>
    let i := commonPrefixLen path n.path
    let n1 := if i < n.path.length then splitNode n path i pfpi fullPath else n
    if i < path.length then
      let path1 := path.drop i
      if n1.wildChild then
        let w := bumpPrio (n1.children.headD nilNode)
        if w.path.length ≤ path1.length ∧ w.path = path1.take w.path.length ∧
            (path1.length ≤ w.path.length ∨ path1.getD w.path.length ' ' = '/') then
          match addRouteWalk fuel w path1 (pfpi + n1.path.length) fullPath handlers with
          | .ok w' =>
            match n1 with
            | .mk p2 i2 c2 h2 pr2 t2 w2 f2 => .ok (.mk p2 i2 (c2.set 0 w') h2 pr2 t2 w2 f2)
          | .error e => .error e
        else .error "conflict with wildcard route"
      else
        let idxc := path1.headD ' '
        match charIdx n1.indices idxc with
        | some j =>
          let r := incrementChildPrio n1 j
          match addRouteWalk fuel (r.1.children.getD r.2 nilNode) path1 (pfpi + n1.path.length) fullPath handlers with
          | .ok c' =>
            match r.1 with
            | .mk p2 i2 c2 h2 pr2 t2 w2 f2 => .ok (.mk p2 i2 (c2.set r.2 c') h2 pr2 t2 w2 f2)
          | .error e => .error e
        | none =>
          if idxc ≠ ':' ∧ idxc ≠ '*' then
            let nApp :=
              match n1 with
              | .mk p2 i2 c2 h2 pr2 t2 w2 f2 =>
                Node.mk p2 (i2 ++ [idxc]) (c2 ++ [.mk [] [] [] none 0 .static false fullPath]) h2 pr2 t2 w2 f2
            let r := incrementChildPrio nApp (nApp.indices.length - 1)
            match insertChild (r.1.children.getD r.2 nilNode) path1 fullPath handlers with
            | .ok c' =>
              match r.1 with
              | .mk p2 i2 c2 h2 pr2 t2 w2 f2 => .ok (.mk p2 i2 (c2.set r.2 c') h2 pr2 t2 w2 f2)
            | .error e => .error e
          else
            insertChild n1 path1 fullPath handlers
    else
      match n1 with
      | .mk p2 i2 c2 h2 pr2 t2 w2 _ =>
        if h2.isSome then
          .error ("handlers are already registered for path \x27" ++ String.mk fullPath ++ "\x27")
        else .ok (.mk p2 i2 c2 (some handlers) pr2 t2 w2 fullPath)

/-- `addRoute` from tree.go. -/
def addRoute (n : Node) (path : Str) (handlers : Chain) : Except String Node :=
  let fullPath := path
  let n1 := bumpPrio n
  if n1.path.length = 0 ∧ n1.children.length = 0 then
    (insertChild n1 path fullPath handlers).map
      (fun m => match m with
        | .mk p i c h pr _ w f => .mk p i c h pr .static w f)
  else
    addRouteWalk (2 * path.length + nsize n1 + 2) n1 path 0 fullPath handlers

/-- `getValue` from tree.go (fueled). On a `return nil, nil, ""` of the source
(including the case of reaching a node whose handler slice is nil) the result
is `none`: `handleRequest` only distinguishes nil from non-nil handlers. -/
def getValueGo : Nat → Node → Str → Params → Option (Chain × Params × Str)
  | 0, _, _, _ => none
  | fuel + 1, n, path, params =>
    let pre := n.path
    if pre.length < path.length then
      if path.take pre.length = pre then
        let path1 := path.drop pre.length
        let idxc := path1.headD ' '
        match charIdx n.indices idxc with
        | some j => getValueGo fuel (n.children.getD j nilNode) path1 params
        | none =>
          if n.wildChild then
            let w := n.children.headD nilNode
            match w.nType with
            | .param =>
              let val := path1.takeWhile (fun c => c ≠ '/')
              let params1 := setParam params (w.path.drop 1) val
              if val.length < path1.length then
                match w.children with
                | [] => none
                | c :: _ => getValueGo fuel c (path1.drop val.length) params1
              else
                match w.handlers with
                | some hs => some (hs, params1, w.fullPath)
                | none => none
            | .catchAll =>
              let params1 := setParam params (w.path.drop 2) path1
              match w.handlers with
              | some hs => some (hs, params1, w.fullPath)
              | none => none
            | .static => none
          else none
      else none
    else
      if path = pre then
        match n.handlers with
        | some hs => some (hs, params, n.fullPath)
        | none => none
      else none

/-- `getValue` with ample fuel. -/
def getValue (n : Node) (path : Str) : Option (Chain × Params × Str) :=
  getValueGo (path.length + nsize n + 2) n path []

/-- A fresh per-method tree root (`router.NewNode()`, the zero node). -/
def root0 : Node := nilNode

/-- Register a list of routes in order, stopping at the first panic. -/
def insertAll : Node → List (Str × Chain) → Except String Node
  | n, [] => .ok n
  | n, (p, h) :: rs =>
    match addRoute n p h with
    | .ok n' => insertAll n' rs
    | .error e => .error e

/-- Build the tree for a route list and look a path up in it (`none` if some
registration panicked). -/
def lookupAfter (rs : List (Str × Chain)) (p : Str) : Option (Option (Chain × Params × Str)) :=
  match insertAll root0 rs with
  | .ok t => some (getValue t p)
  | .error _ => none

/-- `Engine.addRoute` from drift.go: the leading-slash guard
(`if path[0] != '/' { panic(...) }` — `path[0]` of an empty pattern is itself
a runtime panic), then the tree insert. -/
def engineAddRoute (n : Node) (path : Str) (handlers : Chain) : Except String Node :=
  match path with
  | [] => .error "runtime error: index out of range"
  | c :: _ =>
    if c ≠ '/' then .error "path must begin with \x27/\x27"
    else addRoute n path handlers

/-- Spec-side description (C4, amended) of when a single registration into an
EMPTY tree panics, with the panic message.  Scan for the first wildcard
segment (sigil to separator): reject a segment carrying a second sigil, then
an unnamed wildcard; a named parameter that does not end the pattern
continues the scan after it; a catch-all is rejected when it is not the final
segment, when it starts the scanned remainder (Go decrements the index to -1
and indexes the pattern: a runtime panic), or when it is not immediately
preceded by a separator.  Distinct from the code path: the code's
existing-children and segment-root conflicts cannot arise in an empty tree,
so they do not appear here. -/
def specInsertPanicGo : Nat → Str → Option String
  | 0, _ => some "insufficient fuel"
  | fuel + 1, p =>
    match findWildcard p with
    | none => none
    | some (wc, i, valid) =>
      if valid = false then some "only one wildcard per path segment is allowed"
      else if wc.length < 2 then some "wildcards must be named with a non-empty name"
      else if wc.headD ' ' = ':' then
        if wc.length < (p.drop i).length then specInsertPanicGo fuel ((p.drop i).drop wc.length)
        else none
      else
        if i + wc.length ≠ p.length then some "catch-all routes are only allowed at the end of the path"
        else if i = 0 then some "runtime error: index out of range"
        else if p.getD (i - 1) ' ' ≠ '/' then some "no / before catch-all"
        else none

/-- Spec-side panic description for `Engine.addRoute` on an empty tree: the
leading-separator requirement, then the wildcard-segment scan. -/
def specRegistrationPanic (p : Str) : Option String :=
  match p with
  | [] => some "runtime error: index out of range"
  | c :: _ =>
    if c ≠ '/' then some "path must begin with \x27/\x27"
    else specInsertPanicGo (p.length + 1) p

/-! ## `joinPaths` from router.go -/

def joinPaths (absolutePath relativePath : Str) : Str :=
  if relativePath = [] then absolutePath
  else
    let finalPath := if absolutePath = [] then ['/'] else absolutePath
    if relativePath.headD ' ' = '/' then
      if finalPath = ['/'] then relativePath else finalPath ++ relativePath
    else if finalPath.getLast? = some '/' then finalPath ++ relativePath
    else finalPath ++ '/' :: relativePath

/-! ## Chain execution (`Context.Next` / `Context.Abort`)

A handler body is modelled as the sequence of engine calls it makes:
`callNext` (`c.Next()`) and `callAbort` (`c.Abort()`); any other work a
handler does has no effect on the chain state.  The relevant context fields
are the cursor (`index`, a Go `int8` starting at `-1`: every `c.index++`
wraps two's-complement into `[-128, 127]`, modelled by `wrap8`), the
`aborted` flag, a ghost `log` recording the cursor position of each handler
invocation in order, and a ghost `wrapped` flag recording whether any cursor
increment has overflowed the `int8` range. -/

inductive HAct where
  | callNext
  | callAbort
  deriving DecidableEq, Repr

abbrev Handler := List HAct

/-- Two's-complement reduction into the `int8` range `[-128, 127]`: the value
of Go `int8` arithmetic and of the conversion `int8(n)`. -/
def wrap8 (i : Int) : Int := (i + 128) % 256 - 128

structure Ctx where
  index : Int
  aborted : Bool
  log : List Int
  wrapped : Bool
  deriving DecidableEq, Repr

/-- `c.index++` on the `int8` cursor: increment with two's-complement
wrap-around; the ghost `wrapped` flag records whether this increment
overflowed. -/
def inc8 (c : Ctx) : Ctx :=
  { c with index := wrap8 (c.index + 1),
           wrapped := c.wrapped || decide (wrap8 (c.index + 1) ≠ c.index + 1) }

mutual

/-- `Context.Next`: `c.index++` (wrapping), then run the loop. -/
def runNextF : Nat → List Handler → Ctx → Ctx
  | 0, _, c => c
  | f + 1, hs, c => runLoop f hs (inc8 c)

/-- The `for c.index < int8(len(c.handlers))` loop of `Next`: the handler
count is truncated to `int8` by the comparison; stop when the cursor is not
below it or `aborted` is set, otherwise invoke the handler at the cursor and
increment the cursor (wrapping) again.  In the `int8`-safe regime the
theorems work in, the cursor is non-negative and below the true length at
every fetch, so the total `getD` fetch coincides with Go's indexing. -/
def runLoop : Nat → List Handler → Ctx → Ctx
  | 0, _, c => c
  | f + 1, hs, c =>
    if c.index < wrap8 (hs.length : Int) then
      if c.aborted then c
      else
        let c1 := runActs f hs (hs.getD c.index.toNat []) { c with log := c.log ++ [c.index] }
        runLoop f hs (inc8 c1)
    else c

/-- Run a handler body: each `callNext` re-enters `Next` on the same context,
each `callAbort` sets the `aborted` flag (`Context.Abort`). -/
def runActs : Nat → List Handler → List HAct → Ctx → Ctx
  | _, _, [], c => c
  | 0, _, _ :: _, c => c
  | f + 1, hs, a :: as, c =>
    match a with
    | .callNext => runActs f hs as (runNextF f hs c)
    | .callAbort => runActs f hs as { c with aborted := true }

end

/-- Total number of engine calls in a chain; used to compute ample fuel. -/
def totalActs (hs : List Handler) : Nat := (hs.map List.length).sum

/-- Engine-driven execution of a chain: one outer `c.Next()` on a fresh
context, as `handleRequest` performs. -/
def dispatchChain (hs : List Handler) : Ctx :=
  runNextF (2 * (totalActs hs + hs.length) + 4) hs
    { index := -1, aborted := false, log := [], wrapped := false }

/-! ## Pooled request context (`ServeHTTP` / `handleRequest`)

`ECtx` carries the per-request fields of `drift.Context` that survive between
requests of one pooled instance; handler chains are the opaque chains of the
tree model, the store is modelled at the granularity the claims need (string
keys and values; `Set` is last-write-wins). -/

structure ECtx where
  method : Str
  reqPath : Str
  params : Params
  store : List (Str × Str)
  handlers : Chain
  index : Int
  aborted : Bool
  statusCode : Nat
  deriving DecidableEq, Repr

/-- The reset performed at acquisition time (`ServeHTTP` lines 95-103): the
request fields and `Params`, `Query`, `store`, `index`, `aborted`,
`statusCode` are (re)initialised — the `handlers` field is not touched. -/
def resetOnAcquire (method reqPath : Str) (c : ECtx) : ECtx :=
  { c with method := method, reqPath := reqPath, params := [], store := [],
           index := -1, aborted := false, statusCode := 200 }

/-- The engine's method → tree map. -/
def lookupTree : List (Str × Node) → Str → Option Node
  | [], _ => none
  | (m, t) :: rest, k => if m = k then some t else lookupTree rest k

/-- Identifier of the built-in not-found handler installed by
`handleRequest` when no route matches. -/
def notFoundChain : Chain := [0]

/-- `ServeHTTP` + `handleRequest` up to the point where `c.Next()` starts the
chain: acquisition reset, route lookup, binding of `handlers`/`Params` and the
`_fullPath` store entry.  This is exactly the context state the first handler
of the new request observes. -/
def prepareDispatch (trees : List (Str × Node)) (method reqPath : Str) (c : ECtx) : ECtx :=
  let c1 := resetOnAcquire method reqPath c
  match lookupTree trees method with
  | some root =>
    match getValue root reqPath with
    | some (hs, ps, fp) =>
      { c1 with handlers := hs, params := ps,
                store := setParam c1.store "_fullPath".toList fp }
    | none => { c1 with handlers := notFoundChain }
  | none => { c1 with handlers := notFoundChain }

/-! ## Specification-side notions used by the theorems -/

/-- A wildcard-free (purely literal) pattern or path. -/
def Literal (p : Str) : Prop := ':' ∉ p ∧ '*' ∉ p

instance (p : Str) : Decidable (Literal p) := by unfold Literal; infer_instance

mutual

/-- The routes stored in a subtree: full key (concatenation of the path
fragments from this node down) together with the bound chain. -/
def bindings : Node → List (Str × Chain)
  | .mk p _ cs hs _ _ _ _ =>
    (match hs with | some h => [(p, h)] | none => []) ++
      (bindingsL cs).map (fun b => (p ++ b.1, b.2))

/-- Concatenated bindings of a list of subtrees. -/
def bindingsL : List Node → List (Str × Chain)
  | [] => []
  | c :: cs => bindings c ++ bindingsL cs

end

/-- Structural well-formedness of trees built from literal routes only: no
wildcard children, index string and child list in bijection, pairwise
distinct first bytes, each child's fragment starting with its index byte. -/
inductive WFlit : Node → Prop where
  | intro {p idx cs hs pr t w fp} :
      w = false →
      idx.length = cs.length →
      idx.Nodup →
      (∀ q ∈ idx.zip cs, q.2.path.head? = some q.1) →
      (∀ c ∈ cs, WFlit c) →
      WFlit (.mk p idx cs hs pr t w fp)

@[simp] theorem Node.path_mk (p i c h pr t w f) : (Node.mk p i c h pr t w f).path = p := rfl

@[simp] theorem Node.indices_mk (p i c h pr t w f) : (Node.mk p i c h pr t w f).indices = i := rfl

@[simp] theorem Node.children_mk (p i c h pr t w f) : (Node.mk p i c h pr t w f).children = c := rfl

@[simp] theorem Node.handlers_mk (p i c h pr t w f) : (Node.mk p i c h pr t w f).handlers = h := rfl

@[simp] theorem Node.priority_mk (p i c h pr t w f) : (Node.mk p i c h pr t w f).priority = pr := rfl

@[simp] theorem Node.nType_mk (p i c h pr t w f) : (Node.mk p i c h pr t w f).nType = t := rfl

@[simp] theorem Node.wildChild_mk (p i c h pr t w f) : (Node.mk p i c h pr t w f).wildChild = w := rfl

@[simp] theorem Node.fullPath_mk (p i c h pr t w f) : (Node.mk p i c h pr t w f).fullPath = f := rfl

/-- C2: with only the pattern `/users/:id` registered, looking up `/users/42`
succeeds, returns the bound chain, and binds exactly id ↦ "42" (the input
consumed up to the next separator or end of input). -/
theorem c2_param_route_lookup :
    lookupAfter [("/users/:id".toList, [1])] "/users/42".toList =
      some (some ([1], [("id".toList, "42".toList)], "/users/:id".toList)) := rfl

/-- C3 counterexample: with only `/files/*rest` registered, looking up
`/files/a/b/c.txt` binds rest ↦ "/a/b/c.txt" — the catch-all value keeps the
leading separator, so it is not "a/b/c.txt" as the claim states. -/
theorem c3_counterexample :
    lookupAfter [("/files/*rest".toList, [1])] "/files/a/b/c.txt".toList =
      some (some ([1], [("rest".toList, "/a/b/c.txt".toList)], "/files/*rest".toList)) ∧
    "/a/b/c.txt".toList ≠ "a/b/c.txt".toList := ⟨rfl, by decide⟩

/-- C3 amended: the catch-all parameter's value is the entire remaining path
content including the separator preceding the catch-all segment:
`/files/*rest` against `/files/a/b/c.txt` yields rest ↦ "/a/b/c.txt". -/
theorem c3_catchall_value_keeps_separator :
    lookupAfter [("/files/*rest".toList, [1])] "/files/a/b/c.txt".toList =
      some (some ([1], [("rest".toList, "/a/b/c.txt".toList)], "/files/*rest".toList)) := rfl

/-- C9 counterexample: joining base `/api/` with relative `/users` produces
`/api//users` — two separators between the segments, not exactly one. -/
theorem c9_counterexample :
    joinPaths "/api/".toList "/users".toList = "/api//users".toList ∧
    joinPaths "/api/".toList "/users".toList ≠ "/api/users".toList := ⟨rfl, by decide⟩

/-- C9 amended: an empty relative path returns the base unchanged; exactly one
separator is produced when at most one of the two sides supplies one at the
junction, but when the base ends with a separator and the relative path also
begins with one both are kept; an empty base is treated as `/`, and a
separator-initial relative path replaces a base that is exactly `/`. -/
theorem c9_joinPaths_characterisation (b r : Str) :
    (joinPaths b [] = b) ∧
    (r.headD ' ' ≠ '/' → r ≠ [] → b ≠ [] → b.getLast? ≠ some '/' →
      joinPaths b r = b ++ '/' :: r) ∧
    (r.headD ' ' ≠ '/' → r ≠ [] → b.getLast? = some '/' → joinPaths b r = b ++ r) ∧
    (r.headD ' ' ≠ '/' → r ≠ [] → b = [] → joinPaths b r = '/' :: r) ∧
    (r.headD ' ' = '/' → r ≠ [] → b ≠ [] → b ≠ ['/'] → joinPaths b r = b ++ r) ∧
    (r.headD ' ' = '/' → r ≠ [] → (b = ['/'] ∨ b = []) → joinPaths b r = r) := by
  refine ⟨by simp [joinPaths], ?_, ?_, ?_, ?_, ?_⟩
  · intro h1 h2 h3 h4
    simp only [List.headD_eq_head?] at h1
    simp [joinPaths, h1, h2, h3, h4]
  · intro h1 h2 h3
    have hb : b ≠ [] := by rintro rfl; simp at h3
    have hb1 : b ≠ ['/'] ∨ b = ['/'] := (em _).symm
    simp only [List.headD_eq_head?] at h1
    rcases hb1 with hb1 | hb1
    · simp [joinPaths, h1, h2, hb, h3]
    · subst hb1
      simp [joinPaths, h1, h2]
  · intro h1 h2 h3
    subst h3
    simp only [List.headD_eq_head?] at h1
    simp [joinPaths, h1, h2]
  · intro h1 h2 h3 h4
    simp only [List.headD_eq_head?] at h1
    simp [joinPaths, h1, h2, h3, h4]
  · intro h1 h2 h3
    simp only [List.headD_eq_head?] at h1
    rcases h3 with h3 | h3 <;> subst h3 <;> simp [joinPaths, h1, h2]

/-- C9 witness: concrete instances of the amended characterisation. -/
theorem c9_witness :
    joinPaths "/api".toList "users".toList = "/api/users".toList ∧
    joinPaths "/api/".toList "users".toList = "/api/users".toList ∧
    joinPaths "/".toList "/users".toList = "/users".toList := by
  refine ⟨?_, ?_, ?_⟩
  · exact (c9_joinPaths_characterisation "/api".toList "users".toList).2.1
      (by decide) (by decide) (by decide) (by decide)
  · exact (c9_joinPaths_characterisation "/api/".toList "users".toList).2.2.1
      (by decide) (by decide) (by decide)
  · exact (c9_joinPaths_characterisation "/".toList "/users".toList).2.2.2.2.2
      (by decide) (by decide) (Or.inl rfl)

/-- C10 counterexample: in a tree in which the pattern `/users/:id` ends in a
parameter segment, looking up `/users//profile` succeeds (via the sibling
pattern `/users/:id/profile`) and binds id ↦ "" — an empty parameter value of
a param node, refuting the claimed non-emptiness of all bound values. -/
theorem c10_counterexample :
    lookupAfter [("/users/:id".toList, [1]), ("/users/:id/profile".toList, [2])]
        "/users//profile".toList =
      some (some ([2], [("id".toList, [])], "/users/:id/profile".toList)) := rfl

theorem wildcardScan_clean (name : Str)
    (h : ∀ c ∈ name, c ≠ ':' ∧ c ≠ '*' ∧ c ≠ '/') :
    wildcardScan name = (name, true) := by
  induction name with
  | nil => rfl
  | cons c cs ih =>
    obtain ⟨h1, h2, h3⟩ := h c (by simp)
    have ih' := ih (fun x hx => h x (by simp [hx]))
    simp [wildcardScan, h1, h2, h3, ih']

theorem findWildcard_literal (p : Str) (h : Literal p) : findWildcard p = none := by
  obtain ⟨h1, h2⟩ := h
  induction p with
  | nil => rfl
  | cons c cs ih =>
    have hc1 : c ≠ ':' := fun e => h1 (e ▸ List.mem_cons_self c cs)
    have hc2 : c ≠ '*' := fun e => h2 (e ▸ List.mem_cons_self c cs)
    have ih' := ih (fun e => h1 (List.mem_cons_of_mem c e)) (fun e => h2 (List.mem_cons_of_mem c e))
    simp [findWildcard, hc1, hc2, ih']

theorem findWildcard_param (pre name : Str) (hpre : Literal pre)
    (hclean : ∀ c ∈ name, c ≠ ':' ∧ c ≠ '*' ∧ c ≠ '/') :
    findWildcard (pre ++ ':' :: name) = some (':' :: name, pre.length, true) := by
  induction pre with
  | nil => simp [findWildcard, wildcardScan_clean name hclean]
  | cons a pre' ih =>
    have ha1 : a ≠ ':' := fun e => hpre.1 (e ▸ List.mem_cons_self a _)
    have ha2 : a ≠ '*' := fun e => hpre.2 (e ▸ List.mem_cons_self a _)
    have ih' := ih ⟨fun e => hpre.1 (List.mem_cons_of_mem a e),
                    fun e => hpre.2 (List.mem_cons_of_mem a e)⟩
    simp [findWildcard, ha1, ha2, ih']

/-- The tree obtained by registering a single pattern ending in a named
parameter on a fresh root. -/
theorem addRoute_single_end_param (pre name : Str) (ch : Chain)
    (hpre : Literal pre) (hname : name ≠ [])
    (hclean : ∀ c ∈ name, c ≠ ':' ∧ c ≠ '*' ∧ c ≠ '/') :
    addRoute root0 (pre ++ ':' :: name) ch =
      .ok (Node.mk pre [] [Node.mk (':' :: name) [] [] (some ch) 1 .param false
            (pre ++ ':' :: name)] none 1 .static true []) := by
  have hfw := findWildcard_param pre name hpre hclean
  have hlen2 : ¬ (name.length + 1 < 2) := by
    rcases name with _ | _
    · exact absurd rfl hname
    · simp
  unfold addRoute
  simp only [root0, nilNode, bumpPrio]
  rw [if_pos (by simp)]
  unfold insertChild
  rcases pre with _ | ⟨a, pre'⟩
  · simp only [List.nil_append] at hfw ⊢
    simp [insertChildGo, hfw, hlen2]
    rfl
  · simp only [List.cons_append] at hfw ⊢
    simp [insertChildGo, hfw, hlen2, List.take_left, List.drop_left]
    rfl

/-- C10 amended: a pattern that ends in a named single-segment parameter never
matches the empty string when it is the only registered route: looking up the
path that stops where the parameter starts returns not-found.  (The other half
of the original claim is false: with a continuation below the parameter node an
empty value can be bound, see the counterexample.) -/
theorem c10_end_param_rejects_empty (pre name : Str) (ch : Chain) (t : Node)
    (hpre : Literal pre) (hname : name ≠ [])
    (hclean : ∀ c ∈ name, c ≠ ':' ∧ c ≠ '*' ∧ c ≠ '/')
    (ht : addRoute root0 (pre ++ ':' :: name) ch = .ok t) :
    getValue t pre = none := by
  rw [addRoute_single_end_param pre name ch hpre hname hclean] at ht
  injection ht with ht
  subst ht
  unfold getValue
  have hf : ∀ m : Nat, m + 2 = (m + 1) + 1 := fun m => rfl
  rw [hf]
  simp [getValueGo]

/-- C10 witness: the amended theorem at the claim's own instance — only
`/users/:id` registered, lookup of `/users/` is not-found. -/
theorem c10_witness :
    getValue (Node.mk "/users/".toList [] [Node.mk ":id".toList [] [] (some [1]) 1 .param false
      "/users/:id".toList] none 1 .static true []) "/users/".toList = none :=
  c10_end_param_rejects_empty "/users/".toList "id".toList [1] _
    (by decide) (by decide) (by decide) rfl

/-- C7 counterexample: the acquisition-time reset does not clear the
handler-chain reference — a context carrying a chain from a previous request
keeps it across `resetOnAcquire`, contrary to the claim that the reset clears
the chain reference. -/
theorem c7_counterexample :
    (resetOnAcquire "GET".toList "/x".toList
        { method := [], reqPath := [], params := [("a".toList, "b".toList)],
          store := [("k".toList, "v".toList)], handlers := [7], index := 3,
          aborted := true, statusCode := 500 }).handlers = [7] ∧
    ([7] : Chain) ≠ [] := ⟨rfl, by decide⟩

/-- C7 amended: the acquisition reset clears `Params`, the store, the cursor
and the abort flag (but not the chain reference, which is instead overwritten
unconditionally during dispatch); consequently the context state observed by
the first handler of a new request is a function of the new request alone —
it is identical whatever context instance the pool returned. -/
theorem c7_reset_and_independence :
    (∀ m p c, (resetOnAcquire m p c).params = [] ∧ (resetOnAcquire m p c).store = [] ∧
       (resetOnAcquire m p c).index = -1 ∧ (resetOnAcquire m p c).aborted = false) ∧
    (∀ trees m p c c', prepareDispatch trees m p c = prepareDispatch trees m p c') := by
  constructor
  · intro m p c
    exact ⟨rfl, rfl, rfl, rfl⟩
  · intro trees m p c c'
    unfold prepareDispatch resetOnAcquire
    cases lookupTree trees m with
    | none => rfl
    | some root =>
      cases getValue root p with
      | none => rfl
      | some v => rfl

/-! ### Chain execution lemmas -/

theorem wrap8_eq_self (i : Int) (h1 : -128 ≤ i) (h2 : i ≤ 127) : wrap8 i = i := by
  unfold wrap8
  have h3 : (i + 128) % 256 = i + 128 := Int.emod_eq_of_lt (by omega) (by omega)
  omega

theorem inc8_of_no_wrap (c : Ctx) (h1 : -128 ≤ c.index) (h2 : c.index ≤ 126) :
    inc8 c = { c with index := c.index + 1 } := by
  have h := wrap8_eq_self (c.index + 1) (by omega) (by omega)
  unfold inc8
  rw [h]
  simp

theorem wrapped_false_inc8 (c : Ctx) (h : (inc8 c).wrapped = false) :
    c.wrapped = false ∧ inc8 c = { c with index := c.index + 1 } := by
  have h' : (c.wrapped || decide (wrap8 (c.index + 1) ≠ c.index + 1)) = false := h
  have h1 : c.wrapped = false := by
    cases hw : c.wrapped
    · rfl
    · rw [hw] at h'; simp at h'
  have h2 : decide (wrap8 (c.index + 1) ≠ c.index + 1) = false := by
    rw [h1] at h'; simpa using h'
  have h3 : wrap8 (c.index + 1) = c.index + 1 := not_not.mp (of_decide_eq_false h2)
  refine ⟨h1, ?_⟩
  unfold inc8
  rw [h2, h3]
  simp

theorem runLoop_of_aborted (f : Nat) (hs : List Handler) (c : Ctx)
    (h : c.aborted = true) : runLoop f hs c = c := by
  cases f with
  | zero => rfl
  | succ f =>
    unfold runLoop
    by_cases hi : c.index < wrap8 (hs.length : Int) <;> simp [hi, h]

theorem runLoop_stop (f : Nat) (hs : List Handler) (c : Ctx)
    (h : wrap8 (hs.length : Int) ≤ c.index) : runLoop f hs c = c := by
  cases f with
  | zero => rfl
  | succ f => unfold runLoop; simp [not_lt.mpr h]

theorem runLoop_step (f : Nat) (hs : List Handler) (c : Ctx)
    (hi : c.index < wrap8 (hs.length : Int)) (hab : ¬ c.aborted = true) :
    runLoop (f + 1) hs c =
      runLoop f hs (inc8 (runActs f hs (hs.getD c.index.toNat [])
        { c with log := c.log ++ [c.index] })) := by
  conv_lhs => unfold runLoop
  rw [if_pos hi, if_neg hab]

theorem wrappedMono (f : Nat) :
    (∀ hs (c : Ctx), c.wrapped = true → (runNextF f hs c).wrapped = true) ∧
    (∀ hs (c : Ctx), c.wrapped = true → (runLoop f hs c).wrapped = true) ∧
    (∀ hs as (c : Ctx), c.wrapped = true → (runActs f hs as c).wrapped = true) := by
  induction f with
  | zero =>
    refine ⟨fun hs c h => h, fun hs c h => h, fun hs as c h => ?_⟩
    cases as <;> exact h
  | succ f ih =>
    obtain ⟨ihN, ihL, ihA⟩ := ih
    have hinc : ∀ c : Ctx, c.wrapped = true → (inc8 c).wrapped = true := by
      intro c h
      show (c.wrapped || _) = true
      rw [h]
      simp
    refine ⟨?_, ?_, ?_⟩
    · intro hs c h
      show (runLoop f hs (inc8 c)).wrapped = true
      exact ihL hs _ (hinc c h)
    · intro hs c h
      by_cases hi : c.index < wrap8 (hs.length : Int)
      · by_cases hab : c.aborted = true
        · rw [runLoop_of_aborted (f + 1) hs c hab]; exact h
        · rw [runLoop_step f hs c hi hab]
          exact ihL hs _ (hinc _ (ihA hs _ _ h))
      · rw [runLoop_stop (f + 1) hs c (not_lt.mp hi)]; exact h
    · intro hs as c h
      cases as with
      | nil => exact h
      | cons a as =>
        cases a with
        | callNext =>
          show (runActs f hs as (runNextF f hs c)).wrapped = true
          exact ihA hs as _ (ihN hs c h)
        | callAbort =>
          show (runActs f hs as { c with aborted := true }).wrapped = true
          exact ihA hs as _ h

theorem wrapped_false_runLoop (f : Nat) (hs : List Handler) (c : Ctx)
    (h : (runLoop f hs c).wrapped = false) : c.wrapped = false := by
  cases hw : c.wrapped
  · rfl
  · rw [(wrappedMono f).2.1 hs c hw] at h
    exact Bool.noConfusion h

theorem wrapped_false_runActs (f : Nat) (hs : List Handler) (as : List HAct) (c : Ctx)
    (h : (runActs f hs as c).wrapped = false) : c.wrapped = false := by
  cases hw : c.wrapped
  · rfl
  · rw [(wrappedMono f).2.2 hs as c hw] at h
    exact Bool.noConfusion h

theorem runNextF_of_aborted (f : Nat) (hs : List Handler) (c : Ctx)
    (h : c.aborted = true) :
    runNextF f hs c = c ∨ runNextF f hs c = inc8 c := by
  cases f with
  | zero => exact Or.inl rfl
  | succ f =>
    right
    show runLoop f hs (inc8 c) = inc8 c
    exact runLoop_of_aborted f hs _ h

theorem runActs_of_aborted (f : Nat) (hs : List Handler) (as : List HAct) (c : Ctx)
    (h : c.aborted = true) :
    (runActs f hs as c).log = c.log ∧ (runActs f hs as c).aborted = true := by
  induction f generalizing as c with
  | zero => cases as <;> exact ⟨rfl, h⟩
  | succ f ih =>
    cases as with
    | nil => exact ⟨rfl, h⟩
    | cons a as =>
      cases a with
      | callNext =>
        show (runActs f hs as (runNextF f hs c)).log = c.log ∧
          (runActs f hs as (runNextF f hs c)).aborted = true
        rcases runNextF_of_aborted f hs c h with h1 | h1 <;> rw [h1] <;> exact ih as _ h
      | callAbort =>
        show (runActs f hs as { c with aborted := true }).log = c.log ∧ _
        exact ih as _ rfl

/-- C5: in the chain [A, B, C] where B aborts without advancing, A and B are
invoked exactly once (at cursor positions 0 and 1, in that order) and C is
never invoked; and in general, once the aborted flag is set, neither a `Next`
call nor the remaining statements of stacked handlers invoke any further
handler (the invocation log is frozen and the flag stays set). -/
theorem c5_abort_short_circuits :
    dispatchChain [[], [.callAbort], []] =
      { index := 2, aborted := true, log := [0, 1], wrapped := false } ∧
    (∀ f hs (c : Ctx), c.aborted = true →
       (runNextF f hs c).log = c.log ∧ (runNextF f hs c).aborted = true) ∧
    (∀ f hs as (c : Ctx), c.aborted = true →
       (runActs f hs as c).log = c.log ∧ (runActs f hs as c).aborted = true) := by
  refine ⟨rfl, ?_, runActs_of_aborted⟩
  intro f hs c h
  rcases runNextF_of_aborted f hs c h with h1 | h1 <;> rw [h1] <;> exact ⟨rfl, h⟩

/-- C5 witness: the general no-further-invocation part at a concrete aborted
context. -/
theorem c5_witness :
    (runNextF 5 [[HAct.callNext]]
      { index := 0, aborted := true, log := [0], wrapped := false }).log = [0] :=
  (c5_abort_short_circuits.2.1 5 [[HAct.callNext]]
    { index := 0, aborted := true, log := [0], wrapped := false } rfl).1

/-- One simultaneous induction giving, for each of `runNextF`, `runLoop`,
`runActs`, on runs in which no cursor increment overflows the `int8` range
(the ghost `wrapped` flag of the result is still `false`) and the cursor
starts at a reachable position: monotonicity of the cursor, prefix-extension
of the invocation log, and preservation of the ordering invariant (log
strictly increasing and bounded by the cursor). -/
theorem chainExecInv (f : Nat) :
    (∀ hs (c : Ctx), (runNextF f hs c).wrapped = false → -1 ≤ c.index →
       c.index ≤ (runNextF f hs c).index ∧ c.log <+: (runNextF f hs c).log ∧
       ((c.log.Pairwise (· < ·) ∧ ∀ x ∈ c.log, x ≤ c.index) →
         ((runNextF f hs c).log.Pairwise (· < ·) ∧
           ∀ x ∈ (runNextF f hs c).log, x ≤ (runNextF f hs c).index))) ∧
    (∀ hs (c : Ctx), (runLoop f hs c).wrapped = false → 0 ≤ c.index →
       c.index ≤ (runLoop f hs c).index ∧ c.log <+: (runLoop f hs c).log ∧
       ((c.log.Pairwise (· < ·) ∧ ∀ x ∈ c.log, x < c.index) →
         ((runLoop f hs c).log.Pairwise (· < ·) ∧
           ∀ x ∈ (runLoop f hs c).log, x ≤ (runLoop f hs c).index))) ∧
    (∀ hs as (c : Ctx), (runActs f hs as c).wrapped = false → 0 ≤ c.index →
       c.index ≤ (runActs f hs as c).index ∧ c.log <+: (runActs f hs as c).log ∧
       ((c.log.Pairwise (· < ·) ∧ ∀ x ∈ c.log, x ≤ c.index) →
         ((runActs f hs as c).log.Pairwise (· < ·) ∧
           ∀ x ∈ (runActs f hs as c).log, x ≤ (runActs f hs as c).index))) := by
  induction f with
  | zero =>
    refine ⟨fun hs c _ _ => ⟨le_refl _, List.prefix_refl _, fun h => h⟩,
            fun hs c _ _ => ⟨le_refl _, List.prefix_refl _,
              fun h => ⟨h.1, fun x hx => le_of_lt (h.2 x hx)⟩⟩,
            fun hs as c _ _ => ?_⟩
    cases as <;> exact ⟨le_refl _, List.prefix_refl _, fun h => h⟩
  | succ f ih =>
    obtain ⟨ihN, ihL, ihA⟩ := ih
    have stepN : ∀ hs (c : Ctx), (runNextF (f + 1) hs c).wrapped = false → -1 ≤ c.index →
        c.index ≤ (runNextF (f + 1) hs c).index ∧
        c.log <+: (runNextF (f + 1) hs c).log ∧
        ((c.log.Pairwise (· < ·) ∧ ∀ x ∈ c.log, x ≤ c.index) →
          ((runNextF (f + 1) hs c).log.Pairwise (· < ·) ∧
            ∀ x ∈ (runNextF (f + 1) hs c).log, x ≤ (runNextF (f + 1) hs c).index)) := by
      intro hs c hW hI
      have hW0 : (runLoop f hs (inc8 c)).wrapped = false := hW
      have hincW : (inc8 c).wrapped = false := wrapped_false_runLoop f hs (inc8 c) hW0
      obtain ⟨_, hinc⟩ := wrapped_false_inc8 c hincW
      have hstep : runNextF (f + 1) hs c = runLoop f hs { c with index := c.index + 1 } := by
        show runLoop f hs (inc8 c) = _
        rw [hinc]
      have hW1 : (runLoop f hs { c with index := c.index + 1 }).wrapped = false := by
        rw [← hinc]; exact hW0
      obtain ⟨m1, m2, m3⟩ := ihL hs { c with index := c.index + 1 } hW1
        (by show (0 : Int) ≤ c.index + 1; omega)
      rw [hstep]
      refine ⟨le_trans (by simp) m1, m2, fun h => m3 ⟨h.1, fun x hx => ?_⟩⟩
      have := h.2 x hx
      simp only [Int.lt_iff_add_one_le]
      omega
    refine ⟨stepN, ?_, ?_⟩
    · -- runLoop
      intro hs c hW hI0
      by_cases hi : c.index < wrap8 (hs.length : Int)
      · by_cases hab : c.aborted = true
        · rw [runLoop_of_aborted (f + 1) hs c hab]
          exact ⟨le_refl _, List.prefix_refl _,
            fun h => ⟨h.1, fun x hx => le_of_lt (h.2 x hx)⟩⟩
        · rw [runLoop_step f hs c hi hab] at hW ⊢
          set c0 : Ctx := { c with log := c.log ++ [c.index] } with hc0
          have hincW : (inc8 (runActs f hs (hs.getD c.index.toNat []) c0)).wrapped = false :=
            wrapped_false_runLoop f hs _ hW
          obtain ⟨hc1w, hinc⟩ := wrapped_false_inc8 _ hincW
          obtain ⟨a1, a2, a3⟩ := ihA hs (hs.getD c.index.toNat []) c0 hc1w hI0
          set c1 := runActs f hs (hs.getD c.index.toNat []) c0 with hc1
          rw [hinc] at hW ⊢
          obtain ⟨l1, l2, l3⟩ := ihL hs { c1 with index := c1.index + 1 } hW
            (by show (0 : Int) ≤ c1.index + 1
                have h1 : c.index ≤ c1.index := a1
                omega)
          constructor
          · have h1 : c.index ≤ c1.index := a1
            have h2 : (c1.index + 1 : Int) ≤ (runLoop f hs { c1 with index := c1.index + 1 }).index := l1
            omega
          constructor
          · calc c.log <+: c0.log := by simp [hc0]
              _ <+: c1.log := a2
              _ <+: _ := l2
          · intro h
            have hInv0 : c0.log.Pairwise (· < ·) ∧ ∀ x ∈ c0.log, x ≤ c0.index := by
              constructor
              · simp only [hc0, List.pairwise_append]
                exact ⟨h.1, List.pairwise_singleton _ _,
                  fun a ha b hb => by simp at hb; subst hb; exact h.2 a ha⟩
              · intro x hx
                simp only [hc0] at hx ⊢
                rcases List.mem_append.mp hx with hx | hx
                · exact le_of_lt (h.2 x hx)
                · simp at hx; subst hx; exact le_refl _
            have hInv1 := a3 hInv0
            refine l3 ⟨hInv1.1, fun x hx => ?_⟩
            have h9 := hInv1.2 x hx
            show x < c1.index + 1
            omega
      · rw [runLoop_stop (f + 1) hs c (not_lt.mp hi)]
        exact ⟨le_refl _, List.prefix_refl _,
          fun h => ⟨h.1, fun x hx => le_of_lt (h.2 x hx)⟩⟩
    · -- runActs
      intro hs as c hW hI0
      cases as with
      | nil => exact ⟨le_refl _, List.prefix_refl _, fun h => h⟩
      | cons a as =>
        cases a with
        | callNext =>
          have hW' : (runActs f hs as (runNextF f hs c)).wrapped = false := hW
          have hNw : (runNextF f hs c).wrapped = false :=
            wrapped_false_runActs f hs as _ hW'
          obtain ⟨n1, n2, n3⟩ := ihN hs c hNw (by omega)
          obtain ⟨a1, a2, a3⟩ := ihA hs as (runNextF f hs c) hW' (le_trans hI0 n1)
          show c.index ≤ (runActs f hs as (runNextF f hs c)).index ∧ _
          exact ⟨le_trans n1 a1, n2.trans a2, fun h => a3 (n3 h)⟩
        | callAbort =>
          have hW' : (runActs f hs as { c with aborted := true }).wrapped = false := hW
          obtain ⟨a1, a2, a3⟩ := ihA hs as { c with aborted := true } hW' hI0
          show c.index ≤ (runActs f hs as { c with aborted := true }).index ∧ _
          exact ⟨a1, a2, fun h => a3 h⟩

set_option maxRecDepth 4000 in
/-- C6 counterexample: the cursor is a Go `int8`, so its 128th increment
wraps `127` to `-128`.  First part: one `Next` call on a context whose cursor
is `127`, with 128 registered handlers, DECREASES the cursor from `127` to
`-128` (Go: `int8(128) = -128`, so the loop guard `-128 < -128` fails and the
call returns immediately after the wrapping increment) — refuting "the cursor
never decreases".  Second part: a `Next` call with the cursor at `127`,
already past the end of an empty (aborted) chain, leaves the cursor at `-128`
rather than `128` — the past-the-end advance is not the claimed pure
increment no-op. -/
theorem c6_counterexample :
    (runNextF 3 (List.replicate 128 [])
       { index := 127, aborted := false, log := [], wrapped := false }).index = -128 ∧
    (runNextF 3 []
       { index := 127, aborted := true, log := [], wrapped := false }).index = -128 ∧
    (-128 : Int) < 127 :=
  ⟨by decide, by decide, by decide⟩

/-- C6 (amended): the cursor is a wrapping `int8`, so the claim holds in the
`int8`-safe regime and only there.  (1) A `Next` call whose cursor is at or
past the end of a chain of at most 127 handlers, with the increment staying
in range (`cursor ≤ 126`), invokes no handler: only the cursor increment
happens.  (2,3) Across any `Next` call in which no increment overflows (the
ghost `wrapped` flag stays `false`) and the cursor starts at a reachable
position (`≥ -1`), the cursor never decreases and a strictly-increasing
invocation log bounded by the cursor is only ever extended, staying strictly
increasing.  (4) From a fresh dispatch, if no increment overflows, no handler
position is ever invoked twice.  Once the cursor overflows these all fail:
`127 + 1` wraps to `-128` (see the counterexample). -/
theorem c6_cursor_monotone_no_reinvoke :
    (∀ f hs (c : Ctx), -128 ≤ c.index → c.index ≤ 126 → hs.length ≤ 127 →
       (hs.length : Int) ≤ c.index + 1 →
       runNextF (f + 1) hs c = { c with index := c.index + 1 }) ∧
    (∀ f hs (c : Ctx), -1 ≤ c.index → (runNextF f hs c).wrapped = false →
       c.index ≤ (runNextF f hs c).index) ∧
    (∀ f hs (c : Ctx), -1 ≤ c.index → (runNextF f hs c).wrapped = false →
       c.log.Pairwise (· < ·) → (∀ x ∈ c.log, x ≤ c.index) →
       ((runNextF f hs c).log.Pairwise (· < ·) ∧ c.log <+: (runNextF f hs c).log)) ∧
    (∀ f hs,
       (runNextF f hs
         { index := -1, aborted := false, log := [], wrapped := false }).wrapped = false →
       (runNextF f hs
         { index := -1, aborted := false, log := [], wrapped := false }).log.Nodup) := by
  refine ⟨?_, ?_, ?_, ?_⟩
  · intro f hs c h1 h2 h3 h4
    have hinc := inc8_of_no_wrap c h1 h2
    have hlen : wrap8 ((hs.length : Nat) : Int) = ((hs.length : Nat) : Int) :=
      wrap8_eq_self _ (by omega) (by omega)
    show runLoop f hs (inc8 c) = _
    rw [hinc]
    refine runLoop_stop f hs _ ?_
    show wrap8 ((hs.length : Nat) : Int) ≤ c.index + 1
    rw [hlen]
    exact h4
  · intro f hs c hI hW
    exact ((chainExecInv f).1 hs c hW hI).1
  · intro f hs c hI hW h1 h2
    obtain ⟨_, m2, m3⟩ := (chainExecInv f).1 hs c hW hI
    exact ⟨(m3 ⟨h1, h2⟩).1, m2⟩
  · intro f hs hW
    have h := ((chainExecInv f).1 hs
        { index := -1, aborted := false, log := [], wrapped := false } hW (by decide)).2.2
      ⟨List.Pairwise.nil, by simp⟩
    exact h.1.imp ne_of_lt

/-- C6 witness: the in-range past-the-end no-op and the no-reinvocation
invariant at concrete inputs. -/
theorem c6_witness :
    runNextF 4 [[], []] { index := 3, aborted := false, log := [], wrapped := false } =
      { index := 4, aborted := false, log := [], wrapped := false } ∧
    (runNextF 9 [[], []]
      { index := -1, aborted := false, log := [], wrapped := false }).log.Nodup := by
  constructor
  · exact c6_cursor_monotone_no_reinvoke.1 3 [[], []] _ (by decide) (by decide)
      (by decide) (by decide)
  · exact c6_cursor_monotone_no_reinvoke.2.2.2 9 [[], []] (by decide)

/-! ### Common-prefix lemmas -/

theorem cpl_le_left (a b : Str) : commonPrefixLen a b ≤ a.length := by
  induction a generalizing b with
  | nil => cases b <;> simp [commonPrefixLen]
  | cons x xs ih =>
    cases b with
    | nil => simp [commonPrefixLen]
    | cons y ys =>
      by_cases h : x = y
      · have := ih ys
        simp only [commonPrefixLen, if_pos h, List.length_cons]
        omega
      · simp [commonPrefixLen, h]

theorem cpl_le_right (a b : Str) : commonPrefixLen a b ≤ b.length := by
  induction a generalizing b with
  | nil => cases b <;> simp [commonPrefixLen]
  | cons x xs ih =>
    cases b with
    | nil => simp [commonPrefixLen]
    | cons y ys =>
      by_cases h : x = y
      · have := ih ys
        simp only [commonPrefixLen, if_pos h, List.length_cons]
        omega
      · simp [commonPrefixLen, h]

theorem cpl_take_eq (a b : Str) :
    a.take (commonPrefixLen a b) = b.take (commonPrefixLen a b) := by
  induction a generalizing b with
  | nil => cases b <;> simp [commonPrefixLen]
  | cons x xs ih =>
    cases b with
    | nil => simp [commonPrefixLen]
    | cons y ys =>
      by_cases h : x = y
      · subst h; simp [commonPrefixLen, ih ys]
      · simp [commonPrefixLen, h]

theorem cpl_getD_ne (a b : Str) (h1 : commonPrefixLen a b < a.length)
    (h2 : commonPrefixLen a b < b.length) (d : Char) :
    a.getD (commonPrefixLen a b) d ≠ b.getD (commonPrefixLen a b) d := by
  induction a generalizing b with
  | nil => simp at h1
  | cons x xs ih =>
    cases b with
    | nil => simp at h2
    | cons y ys =>
      by_cases h : x = y
      · subst h
        have hc : commonPrefixLen (x :: xs) (x :: ys) = commonPrefixLen xs ys + 1 := by
          simp [commonPrefixLen]
        rw [hc] at h1 h2 ⊢
        simp only [List.length_cons, Nat.add_lt_add_iff_right] at h1 h2
        simpa [List.getD] using ih ys h1 h2
      · have hc : commonPrefixLen (x :: xs) (y :: ys) = 0 := by
          simp [commonPrefixLen, h]
        rw [hc]
        simpa [List.getD] using h

theorem cpl_append_left (a r : Str) : commonPrefixLen (a ++ r) a = a.length := by
  induction a with
  | nil => cases r <;> simp [commonPrefixLen]
  | cons x xs ih => simp [commonPrefixLen, ih]

theorem cpl_pos (a b : Str) (ha : a ≠ []) (h : a.head? = b.head?) :
    0 < commonPrefixLen a b := by
  cases a with
  | nil => exact absurd rfl ha
  | cons x xs =>
    cases b with
    | nil => simp at h
    | cons y ys =>
      simp only [List.head?] at h
      injection h with h
      simp [commonPrefixLen, h]

/-- If neither side is exhausted at the common prefix, the whole strings are
equal when the common prefix covers both. -/
theorem cpl_full_eq (a b : Str) (h1 : a.length ≤ commonPrefixLen a b)
    (h2 : b.length ≤ commonPrefixLen a b) : a = b := by
  have e1 : commonPrefixLen a b = a.length := le_antisymm (cpl_le_left a b) h1
  have e2 : commonPrefixLen a b = b.length := le_antisymm (cpl_le_right a b) h2
  have h3 := cpl_take_eq a b
  rw [e1, List.take_length] at h3
  have hlen : a.length = b.length := e1.symm.trans e2
  rw [hlen, List.take_length] at h3
  exact h3

/-! ### charIdx and zip lemmas -/

theorem charIdx_none (l : Str) (x : Char) : charIdx l x = none ↔ x ∉ l := by
  induction l with
  | nil => simp [charIdx]
  | cons c cs ih =>
    by_cases h : c = x
    · subst h; simp [charIdx]
    · cases hc : charIdx cs x with
      | none =>
        have := ih.mp hc
        simp [charIdx, h, hc, Ne.symm h, this]
      | some j =>
        have hx : x ∈ cs := by
          by_contra hx
          rw [ih.mpr hx] at hc
          exact Option.noConfusion hc
        simp [charIdx, h, hc, hx]

theorem charIdx_some (l : Str) (x : Char) (j : Nat) (h : charIdx l x = some j) :
    l[j]? = some x := by
  induction l generalizing j with
  | nil => simp [charIdx] at h
  | cons c cs ih =>
    by_cases hc : c = x
    · subst hc
      simp [charIdx] at h
      subst h
      simp
    · simp only [charIdx, if_neg hc] at h
      cases hj : charIdx cs x with
      | none => rw [hj] at h; simp at h
      | some j' =>
        rw [hj] at h
        simp at h
        subst h
        simpa using ih j' hj

theorem zip_charIdx (idx : Str) (cs : List Node) (a : Char) (c : Node)
    (hnd : idx.Nodup) (hmem : (a, c) ∈ idx.zip cs) :
    ∃ j, charIdx idx a = some j ∧ (idx.zip cs)[j]? = some (a, c) := by
  induction idx generalizing cs with
  | nil => simp at hmem
  | cons x xs ih =>
    cases cs with
    | nil => simp at hmem
    | cons c0 cs0 =>
      simp only [List.zip_cons_cons, List.mem_cons] at hmem
      by_cases hx : x = a
      · subst hx
        rcases hmem with hmem | hmem
        · have hcc : c = c0 := by simpa using congrArg Prod.snd hmem
          exact ⟨0, by simp [charIdx], by simp [hcc]⟩
        · exact absurd (List.of_mem_zip hmem).1 (List.nodup_cons.mp hnd).1
      · rcases hmem with hmem | hmem
        · exact absurd (congrArg Prod.fst hmem).symm hx
        · obtain ⟨j, hj1, hj2⟩ := ih cs0 (List.nodup_cons.mp hnd).2 hmem
          refine ⟨j + 1, ?_, ?_⟩
          · simp [charIdx, hx, hj1]
          · simpa using hj2

theorem zip_self_eq (l : List (Char × Node)) :
    (l.map Prod.fst).zip (l.map Prod.snd) = l := by
  induction l with
  | nil => rfl
  | cons q l ih => simp [ih]

theorem exists_zip_pair (idx : Str) (cs : List Node) (h : idx.length = cs.length)
    (c : Node) (hc : c ∈ cs) : ∃ a, (a, c) ∈ idx.zip cs := by
  induction idx generalizing cs with
  | nil => cases cs <;> simp_all
  | cons x xs ih =>
    cases cs with
    | nil => simp at hc
    | cons c0 cs0 =>
      rcases List.mem_cons.mp hc with hc | hc
      · exact ⟨x, by simp [hc]⟩
      · obtain ⟨a, ha⟩ := ih cs0 (by simpa using h) hc
        exact ⟨a, by simp [ha]⟩

theorem set_append_cons {α : Type} (A : List α) (x y : α) (B : List α) :
    (A ++ x :: B).set A.length y = A ++ y :: B := by
  induction A with
  | nil => rfl
  | cons a A ih => simp [List.set_cons_succ, ih]

theorem eq_take_cons_drop {α : Type} (l : List α) (j : Nat) (v : α)
    (h : l[j]? = some v) : l = l.take j ++ v :: l.drop (j + 1) := by
  induction l generalizing j with
  | nil => simp at h
  | cons a l ih =>
    cases j with
    | zero => simp_all
    | succ j =>
      simp only [List.getElem?_cons_succ] at h
      simpa using ih j h

theorem perm_cancel_middle {α : Type} (x : α) (K M A B : List α)
    (h : List.Perm (K ++ x :: M) (A ++ x :: B)) : List.Perm (K ++ M) (A ++ B) :=
  ((List.perm_middle.symm.trans h).trans List.perm_middle).cons_inv

/-! ### Literal patterns -/

theorem literal_mem (p : Str) (h : Literal p) (c : Char) (hc : c ∈ p) :
    c ≠ ':' ∧ c ≠ '*' :=
  ⟨fun e => h.1 (e ▸ hc), fun e => h.2 (e ▸ hc)⟩

theorem literal_drop (p : Str) (h : Literal p) (i : Nat) : Literal (p.drop i) :=
  ⟨fun hm => h.1 (List.mem_of_mem_drop hm), fun hm => h.2 (List.mem_of_mem_drop hm)⟩

theorem literal_take (p : Str) (h : Literal p) (i : Nat) : Literal (p.take i) :=
  ⟨fun hm => h.1 (List.mem_of_mem_take hm), fun hm => h.2 (List.mem_of_mem_take hm)⟩

/-! ### bindings and nsize lemmas -/

theorem bindings_def (p idx cs hs pr t w fp) :
    bindings (.mk p idx cs hs pr t w fp) =
      (match hs with | some h => [(p, h)] | none => []) ++
        (bindingsL cs).map (fun b => (p ++ b.1, b.2)) := by
  rw [bindings.eq_def]

theorem bindingsL_nil : bindingsL [] = [] := by rw [bindingsL.eq_def]

theorem bindingsL_cons (c : Node) (cs : List Node) :
    bindingsL (c :: cs) = bindings c ++ bindingsL cs := by rw [bindingsL.eq_def]

theorem bindingsL_append (cs1 cs2 : List Node) :
    bindingsL (cs1 ++ cs2) = bindingsL cs1 ++ bindingsL cs2 := by
  induction cs1 with
  | nil => simp [bindingsL_nil]
  | cons c cs ih => simp [bindingsL_cons, ih]

theorem mem_bindingsL (cs : List Node) (b : Str × Chain) :
    b ∈ bindingsL cs ↔ ∃ c ∈ cs, b ∈ bindings c := by
  induction cs with
  | nil => simp [bindingsL_nil]
  | cons c cs ih => simp [bindingsL_cons, ih]

theorem bindingsL_perm (cs cs' : List Node) (h : List.Perm cs cs') :
    List.Perm (bindingsL cs) (bindingsL cs') := by
  induction h with
  | nil => exact List.Perm.refl _
  | cons x _ ih => simpa [bindingsL_cons] using ih.append_left (bindings x)
  | swap x y l =>
    simp only [bindingsL_cons, ← List.append_assoc]
    exact (@List.perm_append_comm _ (bindings y) (bindings x)).append_right _
  | trans _ _ ih1 ih2 => exact ih1.trans ih2

theorem bindings_bump (c : Node) : bindings (bumpPrio c) = bindings c := by
  cases c with
  | mk p idx cs hs pr t w fp => rw [bumpPrio, bindings_def, bindings_def]

theorem bindings_key_shape (p : Str) (idx : Str) (cs : List Node) (hs : Option Chain)
    (pr : Nat) (t : NodeType) (w : Bool) (fp : Str) (k : Str) (h : Chain)
    (hmem : (k, h) ∈ bindings (.mk p idx cs hs pr t w fp)) :
    (k = p ∧ hs = some h) ∨ ∃ c ∈ cs, ∃ r, (r, h) ∈ bindings c ∧ k = p ++ r := by
  rw [bindings_def] at hmem
  rcases List.mem_append.mp hmem with hmem | hmem
  · left
    cases hs with
    | none => simp at hmem
    | some h0 =>
      simp only [List.mem_singleton, Prod.mk.injEq] at hmem
      exact ⟨hmem.1, by rw [hmem.2]⟩
  · right
    obtain ⟨⟨r, h0⟩, hr, he⟩ := List.mem_map.mp hmem
    obtain ⟨c, hc, hcb⟩ := (mem_bindingsL cs _).mp hr
    simp only [Prod.mk.injEq] at he
    exact ⟨c, hc, r, by rw [he.2] at hcb; exact hcb, he.1.symm⟩

theorem nsize_def (p idx cs hs pr t w fp) :
    nsize (.mk p idx cs hs pr t w fp) = 1 + nsizeL cs := by rw [nsize.eq_def]

theorem nsizeL_mem (cs : List Node) (c : Node) (h : c ∈ cs) : nsize c ≤ nsizeL cs := by
  induction cs with
  | nil => simp at h
  | cons c0 cs ih =>
    rw [nsizeL.eq_def]
    rcases List.mem_cons.mp h with h | h
    · subst h; exact Nat.le_add_right _ _
    · exact le_trans (ih h) (Nat.le_add_left _ _)

theorem nsize_lt_of_mem (p idx cs hs pr t w fp) (c : Node) (h : c ∈ cs) :
    nsize c < nsize (.mk p idx cs hs pr t w fp) := by
  rw [nsize_def]
  have := nsizeL_mem cs c h
  omega

theorem nsize_bump (c : Node) : nsize (bumpPrio c) = nsize c := by
  cases c with
  | mk p idx cs hs pr t w fp => rw [bumpPrio, nsize_def, nsize_def]

/-! ### WFlit helpers -/

theorem WFlit_dest {p idx cs hs pr t w fp} (h : WFlit (.mk p idx cs hs pr t w fp)) :
    w = false ∧ idx.length = cs.length ∧ idx.Nodup ∧
    (∀ q ∈ idx.zip cs, q.2.path.head? = some q.1) ∧ (∀ c ∈ cs, WFlit c) := by
  cases h with
  | intro h1 h2 h3 h4 h5 => exact ⟨h1, h2, h3, h4, h5⟩

theorem WFlit_bump (c : Node) (h : WFlit c) : WFlit (bumpPrio c) := by
  cases c with
  | mk p idx cs hs pr t w fp =>
    obtain ⟨h1, h2, h3, h4, h5⟩ := WFlit_dest h
    exact WFlit.intro h1 h2 h3 h4 h5

theorem bump_path (c : Node) : (bumpPrio c).path = c.path := by
  cases c; rfl

/-- A literal pattern makes `insertChild` store the path and handlers on the
node itself. -/
theorem insertChild_literal (n : Node) (path fp : Str) (hs : Chain)
    (h : Literal path) :
    insertChild n path fp hs =
      .ok (.mk path n.indices n.children (some hs) n.priority n.nType n.wildChild fp) := by
  cases n with
  | mk np nidx ncs nh npr nt nw nf =>
    unfold insertChild
    simp [insertChildGo, findWildcard_literal path h]

theorem getD_append_cons {α : Type} (A : List α) (x : α) (B : List α) (d : α) :
    (A ++ x :: B).getD A.length d = x := by
  induction A with
  | nil => rfl
  | cons a A ih => simpa using ih

/-- What `incrementChildPrio` does when the position is in range: the bumped
pair is moved to a computed position, the other pairs are preserved up to the
single-step reordering (a permutation of the pointwise-updated zip), and all
other node fields are unchanged. -/
theorem incPrio_spec (np nidx : Str) (ncs : List Node) (nh : Option Chain)
    (npr : Nat) (nt : NodeType) (nw : Bool) (nf : Str) (pos : Nat) (c : Char) (ch : Node)
    (hget : (nidx.zip ncs)[pos]? = some (c, ch)) :
    ∃ K M : List (Char × Node),
      incrementChildPrio (.mk np nidx ncs nh npr nt nw nf) pos =
        (.mk np ((K ++ (c, bumpPrio ch) :: M).map Prod.fst)
             ((K ++ (c, bumpPrio ch) :: M).map Prod.snd) nh npr nt nw nf, K.length) ∧
      List.Perm (K ++ (c, bumpPrio ch) :: M)
        ((nidx.zip ncs).set pos (c, bumpPrio ch)) := by
  have hlt : pos < (nidx.zip ncs).length := by
    by_contra hcon
    rw [List.getElem?_eq_none (le_of_not_lt hcon)] at hget
    exact Option.noConfusion hget
  refine ⟨(((nidx.zip ncs).take pos).reverse.dropWhile
            (fun q => q.2.priority < (bumpPrio ch).priority)).reverse,
          (((nidx.zip ncs).take pos).reverse.takeWhile
            (fun q => q.2.priority < (bumpPrio ch).priority)).reverse ++
            (nidx.zip ncs).drop (pos + 1), ?_, ?_⟩
  · unfold incrementChildPrio
    simp only [Node.indices_mk, Node.children_mk, Node.path_mk, Node.handlers_mk,
      Node.priority_mk, Node.nType_mk, Node.wildChild_mk, Node.fullPath_mk]
    rw [hget]
    simp [List.length_reverse]
  · have hset := List.set_eq_take_cons_drop (c, bumpPrio ch) hlt
    rw [hset]
    have hKM : (((nidx.zip ncs).take pos).reverse.dropWhile
          (fun q => q.2.priority < (bumpPrio ch).priority)).reverse ++
        ((((nidx.zip ncs).take pos).reverse.takeWhile
          (fun q => q.2.priority < (bumpPrio ch).priority)).reverse ++
          (nidx.zip ncs).drop (pos + 1)) =
        (nidx.zip ncs).take pos ++ (nidx.zip ncs).drop (pos + 1) := by
      rw [← List.append_assoc, ← List.reverse_append,
          List.takeWhile_append_dropWhile, List.reverse_reverse]
    refine List.Perm.trans List.perm_middle ?_
    rw [hKM]
    exact List.perm_middle.symm

/-- Lookup completeness on literal trees: every stored binding is found, with
the parameter accumulator returned untouched. -/
theorem getValue_complete (fuel : Nat) :
    ∀ (n : Node) (k : Str) (h : Chain) (params : Params),
      WFlit n → nsize n ≤ fuel → (k, h) ∈ bindings n →
      ∃ fpr, getValueGo fuel n k params = some (h, params, fpr) := by
  induction fuel with
  | zero =>
    intro n k h params _ hsz _
    cases n with
    | mk p idx cs hs pr t w fp0 => rw [nsize_def] at hsz; omega
  | succ fuel ih =>
    intro n k h params hwf hsz hmem
    cases n with
    | mk p idx cs hs pr t w fp0 =>
      obtain ⟨hw, hlen, hnd, hpair, hchild⟩ := WFlit_dest hwf
      rcases bindings_key_shape p idx cs hs pr t w fp0 k h hmem with
        ⟨hk, hhs⟩ | ⟨c, hc, r, hr, hk⟩
      · subst hk
        subst hhs
        refine ⟨fp0, ?_⟩
        simp only [getValueGo, Node.path_mk, Node.indices_mk, Node.children_mk,
          Node.handlers_mk, Node.wildChild_mk, Node.fullPath_mk]
        simp
      · -- the binding lives in child c
        obtain ⟨a, hzip⟩ := exists_zip_pair idx cs hlen c hc
        have hhead := hpair _ hzip
        obtain ⟨rr, hrr⟩ : ∃ rr, r = c.path ++ rr := by
          cases c with
          | mk cp cidx ccs chs cpr ct cw cfp =>
            rcases bindings_key_shape cp cidx ccs chs cpr ct cw cfp r h hr with
              ⟨hk', _⟩ | ⟨_, _, r', _, hk'⟩
            · exact ⟨[], by simp [hk']⟩
            · exact ⟨r', hk'⟩
        have hcpne : c.path ≠ [] := by
          intro he
          rw [he] at hhead
          exact Option.noConfusion hhead
        have hrne : r ≠ [] := by
          rw [hrr]
          intro he
          exact hcpne (List.append_eq_nil.mp he).1
        have hrhead : r.head? = some a := by
          rw [hrr]
          cases hcp : c.path with
          | nil => exact absurd hcp hcpne
          | cons x xs =>
            rw [hcp] at hhead
            simpa using hhead
        obtain ⟨j, hj, hjz⟩ := zip_charIdx idx cs a c hnd hzip
        have hcs : cs[j]? = some c := (List.getElem?_zip_eq_some.mp hjz).2
        have hgetd : cs.getD j nilNode = c := by
          rw [List.getD_eq_getElem?_getD, hcs]
          rfl
        have hszc : nsize c ≤ fuel := by
          have := nsize_lt_of_mem p idx cs hs pr t w fp0 c hc
          omega
        obtain ⟨fpc, hrec⟩ := ih c r h params (hchild c hc) hszc hr
        refine ⟨fpc, ?_⟩
        have hlt : p.length < k.length := by
          rw [hk, List.length_append]
          have : 0 < r.length := List.length_pos.mpr hrne
          omega
        have htake : k.take p.length = p := by rw [hk]; exact List.take_left p r
        have hdrop : k.drop p.length = r := by rw [hk]; exact List.drop_left p r
        have hheadD : r.headD ' ' = a := by
          rw [List.headD_eq_head?, hrhead]
          rfl
        simp only [getValueGo, Node.path_mk, Node.indices_mk, Node.children_mk,
          Node.handlers_mk, Node.wildChild_mk, Node.fullPath_mk]
        rw [if_pos hlt, if_pos htake, hdrop, hheadD, hj]
        show getValueGo fuel (cs.getD j nilNode) r params = _
        rw [hgetd]
        exact hrec

theorem head?_take_pos {α : Type} (l : List α) (i : Nat) (h : 0 < i) :
    (l.take i).head? = l.head? := by
  cases l with
  | nil => simp
  | cons x xs =>
    cases i with
    | zero => omega
    | succ i => simp

theorem set_same {α : Type} (l : List α) (j : Nat) (a : α) (h : l[j]? = some a) :
    l.set j a = l := by
  induction l generalizing j with
  | nil => simp at h
  | cons x xs ih =>
    cases j with
    | zero => simp_all
    | succ j =>
      simp only [List.getElem?_cons_succ] at h
      simp [ih j h]

theorem drop_ne_nil {α : Type} (l : List α) (i : Nat) (h : i < l.length) :
    l.drop i ≠ [] := by
  simp only [ne_eq, List.drop_eq_nil_iff]
  omega

theorem head?_drop_getD (l : Str) (i : Nat) (h : i < l.length) :
    (l.drop i).head? = some (l.getD i ' ') := by
  rw [List.head?_drop, List.getD_eq_getElem?_getD, List.getElem?_eq_getElem h]
  rfl

theorem headD_drop_getD (l : Str) (i : Nat) (h : i < l.length) :
    (l.drop i).headD ' ' = l.getD i ' ' := by
  rw [List.headD_eq_head?, head?_drop_getD l i h]
  rfl

/-- Inserting an unchanged block in the middle of two permutation-equal
concatenations. -/
theorem perm_block {α : Type} (A B C D Z : List α)
    (h : List.Perm (A ++ B) (C ++ D)) :
    List.Perm (A ++ (Z ++ B)) (C ++ (Z ++ D)) := by
  have h1 : List.Perm (A ++ (Z ++ B)) (Z ++ (A ++ B)) := by
    rw [← List.append_assoc, ← List.append_assoc]
    exact (@List.perm_append_comm _ A Z).append_right B
  have h2 : List.Perm (Z ++ (C ++ D)) (C ++ (Z ++ D)) := by
    rw [← List.append_assoc, ← List.append_assoc]
    exact (@List.perm_append_comm _ Z C).append_right D
  exact h1.trans ((h.append_left Z).trans h2)

/-- Insert correctness on literal trees: a successful `addRoute` walk yields a
well-formed tree, keeps the first byte of the node's fragment, and adds
exactly the new binding. -/
theorem addRouteWalk_literal (fuel : Nat) :
    ∀ (n : Node) (path : Str) (pfpi : Nat) (fullPath : Str) (hd : Chain) (n' : Node),
      WFlit n → Literal path → path ≠ [] → path.head? = n.path.head? →
      addRouteWalk fuel n path pfpi fullPath hd = .ok n' →
      WFlit n' ∧ n'.path.head? = n.path.head? ∧
      List.Perm (bindings n') ((path, hd) :: bindings n) := by
  induction fuel with
  | zero =>
    intro n path pfpi fullPath hd n' _ _ _ _ heq
    exact Except.noConfusion heq
  | succ fuel ih =>
    intro n path pfpi fullPath hd n' hwf hlit hpne hheads heq
    cases n with
    | mk p idx cs hs pr t w fp0 =>
      obtain ⟨hw, hlen, hnd, hpair, hchild⟩ := WFlit_dest hwf
      subst hw
      simp only [Node.path_mk] at hheads ⊢
      have hppne : p ≠ [] := by
        cases hp : p
        · rw [hp] at hheads
          simp only [List.head?_nil] at hheads
          exact absurd (List.head?_eq_none_iff.mp hheads) hpne
        · exact (by simp [hp])
      have hipos : 0 < commonPrefixLen path p := cpl_pos path p hpne hheads
      have hile1 : commonPrefixLen path p ≤ path.length := cpl_le_left path p
      have hile2 : commonPrefixLen path p ≤ p.length := cpl_le_right path p
      have htke := cpl_take_eq path p
      simp only [addRouteWalk, Node.path_mk] at heq
      by_cases hsplit : commonPrefixLen path p < p.length
      · -- edge split happens
        rw [if_pos hsplit] at heq
        simp only [splitNode, Node.path_mk, Node.indices_mk, Node.children_mk,
          Node.handlers_mk, Node.priority_mk, Node.nType_mk, Node.wildChild_mk,
          Node.fullPath_mk] at heq
        set i := commonPrefixLen path p with hidef
        set big : Node := .mk (p.drop i) idx cs hs (pr - 1) .static false fp0 with hbig
        have hbigwf : WFlit big := WFlit.intro rfl hlen hnd hpair hchild
        have hbighead : big.path.head? = some (p.getD i ' ') := by
          rw [hbig]
          simp only [Node.path_mk]
          exact head?_drop_getD p i hsplit
        have hptake : path.take i = p.take i := htke
        have hpglue : path.take i ++ p.drop i = p := by
          rw [hptake]
          exact List.take_append_drop i p
        have hmapbig : ∀ pre : Str, pre ++ p.drop i = p →
            (bindings big).map (fun b => (pre ++ b.1, b.2)) = bindings (Node.mk p idx cs hs pr t false fp0) := by
          intro pre hpre
          rw [hbig, bindings_def, bindings_def]
          rw [List.map_append, List.map_map]
          congr 1
          · cases hs with
            | none => simp
            | some h0 => simp [hpre]
          · apply List.map_congr_left
            intro b _
            simp only [Function.comp_apply]
            rw [← List.append_assoc, hpre]
        by_cases hlt : commonPrefixLen path p < path.length
        · -- split, and the pattern continues: a fresh sibling is created
          rw [if_pos hlt] at heq
          simp only [Node.wildChild_mk, Bool.false_eq_true, if_false,
            Node.indices_mk, Node.children_mk, Node.path_mk] at heq
          have hne := cpl_getD_ne path p hlt hsplit ' '
          have hheadD1 : (path.drop i).headD ' ' = path.getD i ' ' :=
            headD_drop_getD path i hlt
          rw [hheadD1] at heq
          have h9 : ¬ (p.getD i ' ' = path.getD i ' ') := Ne.symm hne
          simp only [List.getD_eq_getElem?_getD] at h9
          have hcharnone : charIdx [p.getD i ' '] (path.getD i ' ') = none := by
            simp [charIdx, h9]
          rw [hcharnone] at heq
          have hsig := literal_mem path hlit (path.getD i ' ')
            (by
              rw [List.getD_eq_getElem?_getD, List.getElem?_eq_getElem hlt]
              exact List.getElem_mem hlt)
          rw [if_pos (by exact ⟨hsig.1, hsig.2⟩)] at heq
          -- the appended fresh child and the reorder
          have hzapp : ([p.getD i ' '] ++ [path.getD i ' ']).zip
              ([big] ++ [Node.mk [] [] [] none 0 .static false fullPath]) =
              [(p.getD i ' ', big), (path.getD i ' ', Node.mk [] [] [] none 0 .static false fullPath)] := rfl
          obtain ⟨K, M, heqr, hperm⟩ := incPrio_spec (path.take i)
            ([p.getD i ' '] ++ [path.getD i ' '])
            ([big] ++ [Node.mk [] [] [] none 0 .static false fullPath]) none pr t false
            (List.take (pfpi + i) fullPath) 1 (path.getD i ' ')
            (Node.mk [] [] [] none 0 .static false fullPath) (by rw [hzapp]; rfl)
          simp only [List.cons_append, List.nil_append, List.length_cons,
            List.length_nil] at heqr heq
          rw [show (1 + 1 - 1 : Nat) = 1 from rfl] at heq
          rw [heqr] at heq
          simp only [Node.children_mk, Node.indices_mk] at heq
          have hbump : bumpPrio (Node.mk [] [] [] none 0 .static false fullPath) =
              Node.mk [] [] [] none 1 .static false fullPath := rfl
          rw [hbump] at heq hperm
          have hgetK : ((K ++ (path.getD i ' ', Node.mk [] [] [] none 1 .static false fullPath) :: M).map
              Prod.snd).getD K.length nilNode = Node.mk [] [] [] none 1 .static false fullPath := by
            rw [List.map_append, List.map_cons]
            rw [show K.length = (K.map Prod.snd).length from (List.length_map K Prod.snd).symm]
            exact getD_append_cons _ _ _ _
          rw [hgetK] at heq
          have hlitp1 : Literal (path.drop i) := literal_drop path hlit i
          rw [insertChild_literal _ _ _ _ hlitp1] at heq
          simp only [Node.indices_mk, Node.children_mk, Node.handlers_mk,
            Node.priority_mk, Node.nType_mk, Node.wildChild_mk] at heq
          injection heq with heq
          subst heq
          -- the final node
          set c' : Node := .mk (path.drop i) [] [] (some hd) 1 .static false fullPath with hc'
          have hKM : K ++ M = [(p.getD i ' ', big)] := by
            have := perm_cancel_middle _ K M
              [(p.getD i ' ', big)] []
              (by simpa using hperm)
            simpa using List.perm_singleton.mp (by simpa using this)
          have hsetmap : ((K ++ (path.getD i ' ', Node.mk [] [] [] none 1 .static false fullPath) :: M).map
                Prod.snd).set K.length c' =
              (K ++ (path.getD i ' ', c') :: M).map Prod.snd := by
            rw [List.map_append, List.map_cons, List.map_append, List.map_cons]
            rw [show K.length = (K.map Prod.snd).length from (List.length_map K Prod.snd).symm]
            exact set_append_cons _ _ _ _
          rw [hsetmap]
          have hfst : (K ++ (path.getD i ' ', Node.mk [] [] [] none 1 .static false fullPath) :: M).map
              Prod.fst = (K ++ (path.getD i ' ', c') :: M).map Prod.fst := by
            simp
          rw [hfst]
          set zs2 : List (Char × Node) := K ++ (path.getD i ' ', c') :: M with hzs2
          have hzs2perm : List.Perm zs2 [(p.getD i ' ', big), (path.getD i ' ', c')] := by
            rw [hzs2]
            refine List.Perm.trans List.perm_middle ?_
            rw [hKM]
            exact List.Perm.swap _ _ _
          have hmemzs2 : ∀ q ∈ zs2, q = (p.getD i ' ', big) ∨ q = (path.getD i ' ', c') := by
            intro q hq
            have := hzs2perm.mem_iff.mp hq
            simpa using this
          refine ⟨?_, ?_, ?_⟩
          · -- well-formedness
            refine WFlit.intro rfl (by simp) ?_ ?_ ?_
            · have : List.Perm (zs2.map Prod.fst) [p.getD i ' ', path.getD i ' '] := by
                simpa using hzs2perm.map Prod.fst
              rw [this.nodup_iff]
              simp [h9]
            · rw [zip_self_eq]
              intro q hq
              rcases hmemzs2 q hq with hq1 | hq1 <;> subst hq1
              · exact hbighead
              · rw [hc']
                simp only [Node.path_mk]
                exact head?_drop_getD path i hlt
            · intro c hc
              obtain ⟨q, hq, hqc⟩ := List.mem_map.mp hc
              rcases hmemzs2 q hq with hq1 | hq1 <;> subst hq1 <;> rw [← hqc]
              · exact hbigwf
              · exact WFlit.intro rfl rfl List.nodup_nil (by simp) (by simp)
          · -- head byte preserved
            simp only [Node.path_mk]
            rw [head?_take_pos path i hipos]
            exact hheads
          · -- bindings
            rw [bindings_def, bindings_def]
            simp only [List.nil_append]
            have hbl : List.Perm (bindingsL (zs2.map Prod.snd))
                (bindings big ++ bindings c') := by
              have h1 : List.Perm (zs2.map Prod.snd) [big, c'] := by
                simpa using hzs2perm.map Prod.snd
              refine (bindingsL_perm _ _ h1).trans ?_
              rw [bindingsL_cons, bindingsL_cons, bindingsL_nil]
              simp
            have hmapped := hbl.map (fun b => (path.take i ++ b.1, b.2))
            refine List.Perm.trans hmapped ?_
            rw [List.map_append]
            have hb1 : (bindings big).map (fun b => (path.take i ++ b.1, b.2)) =
                bindings (Node.mk p idx cs hs pr t false fp0) := hmapbig _ hpglue
            rw [hb1]
            have hb2 : (bindings c').map (fun b => (path.take i ++ b.1, b.2)) = [(path, hd)] := by
              rw [hc', bindings_def]
              simp [bindingsL_nil, List.take_append_drop]
            rw [hb2]
            exact List.perm_append_comm
        · -- split, pattern exhausted: bind on the split node
          rw [if_neg hlt] at heq
          have hieq : commonPrefixLen path p = path.length := le_antisymm hile1 (not_lt.mp hlt)
          have hpt : path.take i = path := by
            rw [hidef, hieq]
            exact List.take_length path
          simp only [Node.handlers_mk, Option.isSome_none, Bool.false_eq_true,
            if_false] at heq
          injection heq with heq
          subst heq
          refine ⟨?_, ?_, ?_⟩
          · refine WFlit.intro rfl (by simp) (by simp) ?_ ?_
            · rw [show ([p.getD i ' ']).zip [big] = [(p.getD i ' ', big)] from rfl]
              intro q hq
              simp only [List.mem_singleton] at hq
              subst hq
              exact hbighead
            · intro c hc
              simp only [List.mem_singleton] at hc
              subst hc
              exact hbigwf
          · simp only [Node.path_mk]
            rw [head?_take_pos path i hipos]
            exact hheads
          · rw [bindings_def]
            simp only [bindingsL_cons, bindingsL_nil, List.append_nil]
            rw [hpt]
            have hb1 : (bindings big).map (fun b => (path.take i ++ b.1, b.2)) =
                bindings (Node.mk p idx cs hs pr t false fp0) := hmapbig _ hpglue
            rw [← hpt, hb1]
            exact List.Perm.refl _
      · -- no split: the node's fragment is fully matched
        rw [if_neg hsplit] at heq
        have hieq : commonPrefixLen path p = p.length := le_antisymm hile2 (not_lt.mp hsplit)
        have hptake : path.take (commonPrefixLen path p) = p := by
          rw [htke, hieq]
          exact List.take_length p
        set i := commonPrefixLen path p with hidef
        by_cases hlt : commonPrefixLen path p < path.length
        · rw [if_pos hlt] at heq
          simp only [Node.wildChild_mk, Bool.false_eq_true, if_false,
            Node.indices_mk, Node.children_mk, Node.path_mk] at heq
          have hp1ne : path.drop i ≠ [] := drop_ne_nil path i hlt
          have hheadD1 : (path.drop i).headD ' ' = path.getD i ' ' :=
            headD_drop_getD path i hlt
          rw [hheadD1] at heq
          have hglue : p ++ path.drop i = path := by
            conv_rhs => rw [← List.take_append_drop i path]
            rw [hptake]
          have hsig := literal_mem path hlit (path.getD i ' ')
            (by
              rw [List.getD_eq_getElem?_getD, List.getElem?_eq_getElem hlt]
              exact List.getElem_mem hlt)
          cases hchar : charIdx idx (path.getD i ' ') with
          | some j =>
            simp only [hchar] at heq
            have hidxj : idx[j]? = some (path.getD i ' ') := charIdx_some idx _ j hchar
            have hjlt : j < idx.length := (List.getElem?_eq_some_iff.mp hidxj).1
            have hjcs : j < cs.length := hlen ▸ hjlt
            obtain ⟨cj, hcj⟩ : ∃ cj, cs[j]? = some cj :=
              ⟨cs[j], List.getElem?_eq_getElem hjcs⟩
            have hzj : (idx.zip cs)[j]? = some (path.getD i ' ', cj) :=
              List.getElem?_zip_eq_some.mpr ⟨hidxj, hcj⟩
            have hcjmem : (path.getD i ' ', cj) ∈ idx.zip cs := List.getElem?_mem hzj
            have hcjcs : cj ∈ cs := (List.of_mem_zip hcjmem).2
            have hcjhead : cj.path.head? = some (path.getD i ' ') := hpair _ hcjmem
            obtain ⟨K, M, heqr, hperm⟩ := incPrio_spec p idx cs hs pr t false fp0 j
              (path.getD i ' ') cj hzj
            rw [heqr] at heq
            simp only [Node.children_mk, Node.indices_mk, Node.path_mk] at heq
            have hgetK : ((K ++ (path.getD i ' ', bumpPrio cj) :: M).map
                Prod.snd).getD K.length nilNode = bumpPrio cj := by
              rw [List.map_append, List.map_cons]
              rw [show K.length = (K.map Prod.snd).length from (List.length_map K Prod.snd).symm]
              exact getD_append_cons _ _ _ _
            rw [hgetK] at heq
            cases hrec : addRouteWalk fuel (bumpPrio cj) (path.drop i)
                (pfpi + p.length) fullPath hd with
            | error e => rw [hrec] at heq; exact Except.noConfusion heq
            | ok c'' =>
              rw [hrec] at heq
              injection heq with heq
              subst heq
              have hih := ih (bumpPrio cj) (path.drop i) (pfpi + p.length) fullPath hd c''
                (WFlit_bump cj (hchild cj hcjcs)) (literal_drop path hlit i) hp1ne
                (by
                  rw [bump_path, hcjhead, List.head?_drop,
                    List.getD_eq_getElem?_getD, List.getElem?_eq_getElem hlt]
                  rfl) hrec
              obtain ⟨hwf'', hhead'', hbind''⟩ := hih
              rw [bump_path] at hhead''
              have hsetmap : ((K ++ (path.getD i ' ', bumpPrio cj) :: M).map
                    Prod.snd).set K.length c'' =
                  (K ++ (path.getD i ' ', c'') :: M).map Prod.snd := by
                rw [List.map_append, List.map_cons, List.map_append, List.map_cons]
                rw [show K.length = (K.map Prod.snd).length from (List.length_map K Prod.snd).symm]
                exact set_append_cons _ _ _ _
              rw [hsetmap]
              have hfst : (K ++ (path.getD i ' ', bumpPrio cj) :: M).map Prod.fst =
                  (K ++ (path.getD i ' ', c'') :: M).map Prod.fst := by simp
              rw [hfst]
              set zs2 : List (Char × Node) := K ++ (path.getD i ' ', c'') :: M with hzs2
              have hsetzs : (idx.zip cs).set j (path.getD i ' ', bumpPrio cj) =
                  (idx.zip cs).take j ++ (path.getD i ' ', bumpPrio cj) :: (idx.zip cs).drop (j + 1) :=
                List.set_eq_take_cons_drop _ (by
                  rw [List.length_zip]
                  omega)
              have hzsdecomp : idx.zip cs =
                  (idx.zip cs).take j ++ (path.getD i ' ', cj) :: (idx.zip cs).drop (j + 1) :=
                eq_take_cons_drop _ j _ hzj
              have hKMperm : List.Perm (K ++ M)
                  ((idx.zip cs).take j ++ (idx.zip cs).drop (j + 1)) := by
                apply perm_cancel_middle (path.getD i ' ', bumpPrio cj)
                rw [← hsetzs]
                exact hperm
              have hmemzs2 : ∀ q ∈ zs2, q = (path.getD i ' ', c'') ∨ q ∈ idx.zip cs ∨
                  q = (path.getD i ' ', bumpPrio cj) := by
                intro q hq
                rw [hzs2] at hq
                rcases List.mem_append.mp hq with hq | hq
                · right
                  have : q ∈ K ++ M := List.mem_append.mpr (Or.inl hq)
                  have := hKMperm.mem_iff.mp this
                  rcases List.mem_append.mp this with hq2 | hq2
                  · exact Or.inl (List.mem_of_mem_take hq2)
                  · exact Or.inl (List.mem_of_mem_drop hq2)
                · rcases List.mem_cons.mp hq with hq | hq
                  · exact Or.inl hq
                  · right
                    have : q ∈ K ++ M := List.mem_append.mpr (Or.inr hq)
                    have := hKMperm.mem_iff.mp this
                    rcases List.mem_append.mp this with hq2 | hq2
                    · exact Or.inl (List.mem_of_mem_take hq2)
                    · exact Or.inl (List.mem_of_mem_drop hq2)
              refine ⟨?_, by simp, ?_⟩
              · -- well-formedness of the rebuilt node
                refine WFlit.intro rfl (by simp) ?_ ?_ ?_
                · have h1 : zs2.map Prod.fst = (K ++ (path.getD i ' ', bumpPrio cj) :: M).map Prod.fst := by
                    simp [hzs2]
                  rw [h1]
                  have h2 := hperm.map Prod.fst
                  rw [h2.nodup_iff]
                  have h3 : ((idx.zip cs).set j (path.getD i ' ', bumpPrio cj)).map Prod.fst =
                      idx := by
                    rw [List.map_set]
                    rw [List.map_fst_zip idx cs (le_of_eq hlen)]
                    exact set_same idx j _ hidxj
                  rw [h3]
                  exact hnd
                · rw [zip_self_eq]
                  intro q hq
                  rcases hmemzs2 q hq with hq1 | hq1 | hq1
                  · subst hq1
                    simp only
                    rw [hhead'', hcjhead]
                  · exact hpair q hq1
                  · subst hq1
                    simp only
                    rw [bump_path]
                    exact hcjhead
                · intro c hc
                  obtain ⟨q, hq, hqc⟩ := List.mem_map.mp hc
                  rcases hmemzs2 q hq with hq1 | hq1 | hq1
                  · subst hq1; rw [← hqc]; exact hwf''
                  · rw [← hqc]; exact hchild _ (List.of_mem_zip hq1).2
                  · subst hq1; rw [← hqc]; exact WFlit_bump cj (hchild cj hcjcs)
              · -- bindings
                rw [bindings_def, bindings_def]
                have hcs_decomp : cs = ((idx.zip cs).take j).map Prod.snd ++ cj ::
                    ((idx.zip cs).drop (j + 1)).map Prod.snd := by
                  conv_lhs => rw [← List.map_snd_zip idx cs (le_of_eq hlen.symm)]
                  conv_lhs => rw [hzsdecomp]
                  rw [List.map_append, List.map_cons]
                have hmain : List.Perm (bindingsL (zs2.map Prod.snd))
                    ((path.drop i, hd) :: bindingsL cs) := by
                  have hsnd : zs2.map Prod.snd = K.map Prod.snd ++ c'' :: M.map Prod.snd := by
                    simp [hzs2]
                  rw [hsnd, bindingsL_append, bindingsL_cons]
                  have hstep1 : List.Perm (bindings c'') ((path.drop i, hd) :: bindings cj) := by
                    rw [← bindings_bump cj]
                    exact hbind''
                  refine List.Perm.trans ((hstep1.append_right _).append_left _) ?_
                  rw [List.cons_append]
                  refine List.Perm.trans List.perm_middle ?_
                  refine List.Perm.cons _ ?_
                  have hKMb : List.Perm
                      (bindingsL (K.map Prod.snd) ++ bindingsL (M.map Prod.snd))
                      (bindingsL (((idx.zip cs).take j).map Prod.snd) ++
                        bindingsL (((idx.zip cs).drop (j + 1)).map Prod.snd)) := by
                    have h5 := bindingsL_perm _ _ (hKMperm.map Prod.snd)
                    rwa [List.map_append, bindingsL_append, List.map_append,
                      bindingsL_append] at h5
                  have h6 := perm_block _ _ _ _ (bindings cj) hKMb
                  refine h6.trans ?_
                  have hsplitb : bindingsL cs =
                      bindingsL (((idx.zip cs).take j).map Prod.snd) ++
                        (bindings cj ++ bindingsL (((idx.zip cs).drop (j + 1)).map Prod.snd)) := by
                    conv_lhs => rw [hcs_decomp]
                    rw [bindingsL_append, bindingsL_cons]
                  rw [hsplitb]
                have hmapped := hmain.map (fun b => (p ++ b.1, b.2))
                simp only [List.map_cons] at hmapped
                rw [hglue] at hmapped
                exact List.Perm.trans (hmapped.append_left _) List.perm_middle
          | none =>
            simp only [hchar] at heq
            rw [if_pos ⟨hsig.1, hsig.2⟩] at heq
            have hidxnotmem : path.getD i ' ' ∉ idx := (charIdx_none idx _).mp hchar
            set fresh : Node := .mk [] [] [] none 0 .static false fullPath with hfresh
            have hzlen : (idx.zip cs).length = idx.length := by
              rw [List.length_zip, hlen]
              simp
            have hzapp : (idx ++ [path.getD i ' ']).zip (cs ++ [fresh]) =
                idx.zip cs ++ [(path.getD i ' ', fresh)] := List.zip_append hlen
            have hposget : ((idx ++ [path.getD i ' ']).zip (cs ++ [fresh]))[(idx.zip cs).length]? =
                some (path.getD i ' ', fresh) := by
              rw [hzapp, List.getElem?_append_right (le_refl _)]
              simp
            obtain ⟨K, M, heqr, hperm⟩ := incPrio_spec p (idx ++ [path.getD i ' '])
              (cs ++ [fresh]) hs pr t false fp0 (idx.zip cs).length (path.getD i ' ') fresh hposget
            have hposreduce : (idx ++ [path.getD i ' ']).length - 1 = (idx.zip cs).length := by
              rw [List.length_append, hzlen]
              simp
            simp only [Node.indices_mk, Node.children_mk, List.length_append,
              List.length_cons, List.length_nil] at heq
            rw [show idx.length + (0 + 1) - 1 = (idx.zip cs).length by omega] at heq
            rw [heqr] at heq
            simp only [Node.children_mk, Node.indices_mk] at heq
            have hbump : bumpPrio fresh = Node.mk [] [] [] none 1 .static false fullPath := rfl
            rw [hbump] at heq hperm
            have hgetK : ((K ++ (path.getD i ' ', Node.mk [] [] [] none 1 .static false fullPath) :: M).map
                Prod.snd).getD K.length nilNode =
                Node.mk [] [] [] none 1 .static false fullPath := by
              rw [List.map_append, List.map_cons]
              rw [show K.length = (K.map Prod.snd).length from (List.length_map K Prod.snd).symm]
              exact getD_append_cons _ _ _ _
            rw [hgetK] at heq
            rw [insertChild_literal _ _ _ _ (literal_drop path hlit i)] at heq
            simp only [Node.indices_mk, Node.children_mk, Node.handlers_mk,
              Node.priority_mk, Node.nType_mk, Node.wildChild_mk] at heq
            injection heq with heq
            subst heq
            set c' : Node := .mk (path.drop i) [] [] (some hd) 1 .static false fullPath with hc'
            have hKM : List.Perm (K ++ M) (idx.zip cs) := by
              have hsetapp : (idx.zip cs ++ [(path.getD i ' ', fresh)]).set (idx.zip cs).length
                  (path.getD i ' ', Node.mk [] [] [] none 1 .static false fullPath) =
                  idx.zip cs ++ [(path.getD i ' ', Node.mk [] [] [] none 1 .static false fullPath)] :=
                set_append_cons _ _ _ _
              rw [hzapp, hsetapp] at hperm
              have := perm_cancel_middle _ K M (idx.zip cs) [] (by simpa using hperm)
              simpa using this
            have hsetmap : ((K ++ (path.getD i ' ', Node.mk [] [] [] none 1 .static false fullPath) :: M).map
                  Prod.snd).set K.length c' =
                (K ++ (path.getD i ' ', c') :: M).map Prod.snd := by
              rw [List.map_append, List.map_cons, List.map_append, List.map_cons]
              rw [show K.length = (K.map Prod.snd).length from (List.length_map K Prod.snd).symm]
              exact set_append_cons _ _ _ _
            rw [hsetmap]
            have hfst : (K ++ (path.getD i ' ', Node.mk [] [] [] none 1 .static false fullPath) :: M).map
                Prod.fst = (K ++ (path.getD i ' ', c') :: M).map Prod.fst := by simp
            rw [hfst]
            set zs2 : List (Char × Node) := K ++ (path.getD i ' ', c') :: M with hzs2
            have hmemzs2 : ∀ q ∈ zs2, q = (path.getD i ' ', c') ∨ q ∈ idx.zip cs := by
              intro q hq
              rw [hzs2] at hq
              rcases List.mem_append.mp hq with hq | hq
              · exact Or.inr (hKM.mem_iff.mp (List.mem_append.mpr (Or.inl hq)))
              · rcases List.mem_cons.mp hq with hq | hq
                · exact Or.inl hq
                · exact Or.inr (hKM.mem_iff.mp (List.mem_append.mpr (Or.inr hq)))
            refine ⟨?_, by simp, ?_⟩
            · refine WFlit.intro rfl (by simp) ?_ ?_ ?_
              · have h1 : zs2.map Prod.fst =
                    (K ++ (path.getD i ' ', Node.mk [] [] [] none 1 .static false fullPath) :: M).map
                      Prod.fst := by simp [hzs2]
                rw [h1]
                have h2 := hperm.map Prod.fst
                rw [h2.nodup_iff]
                rw [hzapp]
                have hsetapp : (idx.zip cs ++ [(path.getD i ' ', fresh)]).set (idx.zip cs).length
                    (path.getD i ' ', Node.mk [] [] [] none 1 .static false fullPath) =
                    idx.zip cs ++ [(path.getD i ' ', Node.mk [] [] [] none 1 .static false fullPath)] :=
                  set_append_cons _ _ _ _
                rw [hsetapp, List.map_append, List.map_fst_zip idx cs (le_of_eq hlen)]
                have hidxnotmem' := hidxnotmem
                simp only [List.getD_eq_getElem?_getD] at hidxnotmem'
                simp [List.nodup_append, hnd, hidxnotmem']
              · rw [zip_self_eq]
                intro q hq
                rcases hmemzs2 q hq with hq1 | hq1
                · subst hq1
                  simp only
                  rw [hc']
                  simp only [Node.path_mk]
                  exact head?_drop_getD path i hlt
                · exact hpair q hq1
              · intro c hc
                obtain ⟨q, hq, hqc⟩ := List.mem_map.mp hc
                rcases hmemzs2 q hq with hq1 | hq1
                · subst hq1
                  rw [← hqc]
                  exact WFlit.intro rfl rfl List.nodup_nil (by simp) (by simp)
                · rw [← hqc]
                  exact hchild _ (List.of_mem_zip hq1).2
            · -- bindings
              rw [bindings_def, bindings_def]
              have hmain : List.Perm (bindingsL (zs2.map Prod.snd))
                  ((path.drop i, hd) :: bindingsL cs) := by
                have hsnd : zs2.map Prod.snd = K.map Prod.snd ++ c' :: M.map Prod.snd := by
                  simp [hzs2]
                rw [hsnd, bindingsL_append, bindingsL_cons]
                have hbc' : bindings c' = [(path.drop i, hd)] := by
                  rw [hc', bindings_def]
                  simp [bindingsL_nil]
                rw [hbc']
                rw [show ([(path.drop i, hd)] : List (Str × Chain)) ++ bindingsL (M.map Prod.snd) =
                  (path.drop i, hd) :: bindingsL (M.map Prod.snd) from rfl]
                refine List.Perm.trans List.perm_middle ?_
                refine List.Perm.cons _ ?_
                have h5 := bindingsL_perm _ _ (hKM.map Prod.snd)
                rw [List.map_append, bindingsL_append] at h5
                rwa [List.map_snd_zip idx cs (le_of_eq hlen.symm)] at h5
              have hmapped := hmain.map (fun b => (p ++ b.1, b.2))
              simp only [List.map_cons] at hmapped
              rw [hglue] at hmapped
              exact List.Perm.trans (hmapped.append_left _) List.perm_middle
        · -- the pattern is fully consumed at this node: bind the handlers here
          rw [if_neg hlt] at heq
          have hieq2 : commonPrefixLen path p = path.length := le_antisymm hile1 (not_lt.mp hlt)
          have hpatheq : path = p := cpl_full_eq path p (le_of_eq hieq2.symm) (le_of_eq hieq.symm)
          cases hs with
          | some h0 =>
            simp only [Node.handlers_mk, Option.isSome_some, if_true] at heq
            exact Except.noConfusion heq
          | none =>
            simp only [Node.handlers_mk, Option.isSome_none, Bool.false_eq_true,
              if_false] at heq
            injection heq with heq
            subst heq
            refine ⟨WFlit.intro rfl hlen hnd hpair hchild, by simp, ?_⟩
            rw [bindings_def, bindings_def]
            simp only [List.nil_append]
            rw [hpatheq]
            exact List.Perm.refl _

/-- Registering a literal pattern on a fresh (empty) root. -/
theorem addRoute_empty (p : Str) (hd : Chain) (hlit : Literal p) :
    addRoute root0 p hd = .ok (.mk p [] [] (some hd) 1 .static false p) := by
  unfold addRoute
  rw [if_pos (by exact ⟨rfl, rfl⟩)]
  rw [insertChild_literal _ _ _ _ hlit]
  rfl

/-- One literal registration step on a nonempty, well-formed tree. -/
theorem addRoute_literal_step (t : Node) (p : Str) (hd : Chain) (t' : Node)
    (hwf : WFlit t) (hhead : t.path.head? = some '/')
    (hlit : Literal p) (hp : p.head? = some '/')
    (heq : addRoute t p hd = .ok t') :
    WFlit t' ∧ t'.path.head? = some '/' ∧
    List.Perm (bindings t') ((p, hd) :: bindings t) := by
  have htne : t.path ≠ [] := by
    intro h
    rw [h] at hhead
    exact Option.noConfusion hhead
  unfold addRoute at heq
  rw [if_neg (by
    intro hcon
    rw [bump_path] at hcon
    exact htne (List.length_eq_zero.mp hcon.1))] at heq
  have hpne : p ≠ [] := by
    intro h
    rw [h] at hp
    exact Option.noConfusion hp
  obtain ⟨hwf', hhead', hbind'⟩ := addRouteWalk_literal _ (bumpPrio t) p 0 p hd t'
    (WFlit_bump t hwf) hlit hpne (by rw [bump_path, hp, hhead]) heq
  rw [bump_path] at hhead'
  rw [bindings_bump] at hbind'
  exact ⟨hwf', hhead'.trans hhead, hbind'⟩

/-- Registering a list of literal routes on a nonempty well-formed tree adds
exactly those bindings. -/
theorem insertAll_literal (rs : List (Str × Chain)) :
    ∀ (t t' : Node), (∀ r ∈ rs, Literal r.1 ∧ r.1.head? = some '/') →
      WFlit t → t.path.head? = some '/' →
      insertAll t rs = .ok t' →
      WFlit t' ∧ t'.path.head? = some '/' ∧
      List.Perm (bindings t') (rs ++ bindings t) := by
  induction rs with
  | nil =>
    intro t t' _ hwf hhead heq
    injection heq with heq
    subst heq
    exact ⟨hwf, hhead, by simp⟩
  | cons r rs0 ih =>
    intro t t' hlit hwf hhead heq
    simp only [insertAll] at heq
    cases hstep : addRoute t r.1 r.2 with
    | error e => rw [hstep] at heq; exact Except.noConfusion heq
    | ok t1 =>
      rw [hstep] at heq
      obtain ⟨hwf1, hhead1, hbind1⟩ := addRoute_literal_step t r.1 r.2 t1 hwf hhead
        (hlit r (List.mem_cons_self r rs0)).1 (hlit r (List.mem_cons_self r rs0)).2 hstep
      obtain ⟨hwf', hhead', hbind'⟩ := ih t1 t'
        (fun x hx => hlit x (List.mem_cons_of_mem r hx)) hwf1 hhead1 heq
      refine ⟨hwf', hhead', ?_⟩
      refine hbind'.trans ?_
      refine List.Perm.trans (hbind1.append_left rs0) ?_
      refine List.Perm.trans List.perm_middle ?_
      rw [show ((r.1, r.2) : Str × Chain) = r from rfl]
      exact List.Perm.refl _

/-- C1: for every successful sequence of insertions of wildcard-free literal
patterns into a method's route tree, looking up any one of the registered
literal paths returns exactly the handler chain registered for it and an
empty parameter map. -/
theorem c1_literal_routes_lookup (rs : List (Str × Chain)) (t : Node)
    (hlit : ∀ r ∈ rs, Literal r.1 ∧ r.1.head? = some '/')
    (hok : insertAll root0 rs = .ok t)
    (p : Str) (ch : Chain) (hmem : (p, ch) ∈ rs) :
    ∃ fpr, getValue t p = some (ch, [], fpr) := by
  cases rs with
  | nil => simp at hmem
  | cons r rs0 =>
    simp only [insertAll] at hok
    rw [addRoute_empty r.1 r.2 (hlit r (List.mem_cons_self r rs0)).1] at hok
    have hwf1 : WFlit (Node.mk r.1 [] [] (some r.2) 1 .static false r.1) :=
      WFlit.intro rfl rfl List.nodup_nil (by simp) (by simp)
    obtain ⟨hwf', _, hbind'⟩ := insertAll_literal rs0 _ t
      (fun x hx => hlit x (List.mem_cons_of_mem r hx)) hwf1
      (by simpa using (hlit r (List.mem_cons_self r rs0)).2) hok
    have hb1 : bindings (Node.mk r.1 [] [] (some r.2) 1 .static false r.1) = [(r.1, r.2)] := by
      rw [bindings_def]
      simp [bindingsL_nil]
    rw [hb1] at hbind'
    have hmem' : (p, ch) ∈ bindings t := by
      rw [hbind'.mem_iff]
      rcases List.mem_cons.mp hmem with hm | hm
      · rw [hm]
        simp
      · exact List.mem_append.mpr (Or.inl hm)
    obtain ⟨fpr, hlook⟩ := getValue_complete (p.length + nsize t + 2) t p ch []
      hwf' (by omega) hmem'
    exact ⟨fpr, hlook⟩

/-- C1 witness: two concrete literal routes sharing a prefix, both found with
their own chains and empty parameters. -/
theorem c1_witness :
    ∃ fpr, getValue (Node.mk ['/', 'a'] [] [] (some [1]) 1 .static false ['/', 'a'])
      ['/', 'a'] = some ([1], [], fpr) :=
  c1_literal_routes_lookup [(['/', 'a'], [1])] _ (by decide) rfl ['/', 'a'] [1] (by simp)

/-! ### Registration panic characterisation (C4) -/

theorem wildcardScan_len (cs : Str) : (wildcardScan cs).1.length ≤ cs.length := by
  induction cs with
  | nil => simp [wildcardScan]
  | cons c cs ih =>
    unfold wildcardScan
    by_cases hc : c = '/'
    · simp [hc]
    · simp only [if_neg hc, List.length_cons]
      omega

theorem findWildcard_le (p : Str) :
    ∀ wc i v, findWildcard p = some (wc, i, v) → i + wc.length ≤ p.length := by
  induction p with
  | nil => intro wc i v h; simp [findWildcard] at h
  | cons c cs ih =>
    intro wc i v h
    simp only [findWildcard] at h
    split at h
    · simp only [Option.some.injEq, Prod.mk.injEq] at h
      obtain ⟨h1, h2, h3⟩ := h
      have hs := wildcardScan_len cs
      rw [← h1, ← h2]
      simp only [List.length_cons]
      omega
    · cases hfw : findWildcard cs with
      | none => simp only [hfw] at h; exact Option.noConfusion h
      | some r =>
        obtain ⟨w, i', v'⟩ := r
        simp only [hfw, Option.some.injEq, Prod.mk.injEq] at h
        obtain ⟨h1, h2, h3⟩ := h
        subst h1
        subst h2
        have hle := ih w i' v' hfw
        simp only [List.length_cons]
        omega

theorem specInsertPanicGo_fuel (fuel : Nat) :
    ∀ p : Str, p.length < fuel → specInsertPanicGo fuel p ≠ some "insufficient fuel" := by
  induction fuel with
  | zero => intro p hp; omega
  | succ fuel ih =>
    intro p hp
    unfold specInsertPanicGo
    cases hw : findWildcard p with
    | none => simp [hw]
    | some r =>
      obtain ⟨wc, i, v⟩ := r
      have hle := findWildcard_le p wc i v hw
      simp only [hw]
      by_cases hv : v = false
      · simp only [if_pos hv]; decide
      simp only [if_neg hv]
      by_cases h2 : wc.length < 2
      · simp only [if_pos h2]; decide
      simp only [if_neg h2]
      by_cases hparam : wc.headD ' ' = ':'
      · simp only [if_pos hparam]
        by_cases hcont : wc.length < (p.drop i).length
        · simp only [if_pos hcont]
          refine ih _ ?_
          simp only [List.length_drop]
          omega
        · simp only [if_neg hcont]
          intro hcontra
          exact Option.noConfusion hcontra
      · simp only [if_neg hparam]
        by_cases hend : i + wc.length ≠ p.length
        · simp only [if_pos hend]; decide
        simp only [if_neg hend]
        by_cases hi0 : i = 0
        · simp only [if_pos hi0]; decide
        simp only [if_neg hi0]
        by_cases hsl : p.getD (i - 1) ' ' ≠ '/'
        · simp only [if_pos hsl]; decide
        · simp only [if_neg hsl]
          intro hcontra
          exact Option.noConfusion hcontra

theorem insertChildGo_spec (fuel : Nat) :
    ∀ (p fp : Str) (hd : Chain) (n : Node), n.children = [] → n.path = [] →
      ∀ e, (insertChildGo fuel n p fp hd = .error e ↔ specInsertPanicGo fuel p = some e) := by
  induction fuel with
  | zero =>
    intro p fp hd n _ _ e
    show (Except.error "insufficient fuel" : Except String Node) = Except.error e ↔
      some "insufficient fuel" = some e
    simp
  | succ fuel ih =>
    intro p fp hd n hch hpath e
    cases n with
    | mk np nidx ncs nh npr nt nw nf =>
      simp only [Node.children] at hch
      simp only [Node.path] at hpath
      subst hch
      subst hpath
      cases hw : findWildcard p with
      | none => simp [insertChildGo, specInsertPanicGo, hw]
      | some r =>
        obtain ⟨wc, i, v⟩ := r
        simp only [insertChildGo, specInsertPanicGo, hw]
        by_cases hv : v = false
        · simp [hv]
        simp only [if_neg hv]
        by_cases h2 : wc.length < 2
        · simp [h2]
        simp only [if_neg h2]
        rw [if_neg (by simp [Node.children] :
          ¬ 0 < (Node.mk [] nidx [] nh npr nt nw nf).children.length)]
        by_cases hparam : wc.headD ' ' = ':'
        · simp only [if_pos hparam]
          by_cases hcont : wc.length < (p.drop i).length
          · simp only [if_pos hcont]
            have hiff := ih ((p.drop i).drop wc.length) fp hd
              (.mk [] [] [] none 1 .static false fp) rfl rfl e
            cases hrec : insertChildGo fuel (.mk [] [] [] none 1 .static false fp)
                ((p.drop i).drop wc.length) fp hd with
            | error err =>
              rw [hrec] at hiff
              simp only [hrec]
              simp only [Except.error.injEq] at hiff ⊢
              exact hiff
            | ok g =>
              rw [hrec] at hiff
              simp only [hrec]
              split
              constructor
              · intro hcontra; exact Except.noConfusion hcontra
              · intro hs; exact Except.noConfusion (hiff.mpr hs)
          · simp only [if_neg hcont]
            split
            constructor
            · intro hcontra; exact Except.noConfusion hcontra
            · intro hs; exact Option.noConfusion hs
        · simp only [if_neg hparam]
          by_cases hend : i + wc.length ≠ p.length
          · simp [hend]
          simp only [if_neg hend]
          rw [if_neg (by simp [Node.path] :
            ¬ ((Node.mk [] nidx [] nh npr nt nw nf).path ≠ [] ∧
               (Node.mk [] nidx [] nh npr nt nw nf).path.getLast? = some '/'))]
          by_cases hi0 : i = 0
          · simp [hi0]
          simp only [if_neg hi0]
          by_cases hsl : p.getD (i - 1) ' ' ≠ '/'
          · simp only [List.getD_eq_getElem?_getD] at hsl
            simp [hsl]
          · simp only [ne_eq, not_not, List.getD_eq_getElem?_getD] at hsl
            simp [hsl]

theorem addRoute_empty_spec (p : Str) (hd : Chain) (e : String) :
    addRoute root0 p hd = .error e ↔ specInsertPanicGo (p.length + 1) p = some e := by
  have hiff := insertChildGo_spec (p.length + 1) p p hd (bumpPrio root0) rfl rfl e
  have hstep : addRoute root0 p hd =
      (insertChildGo (p.length + 1) (bumpPrio root0) p p hd).map
        (fun m => match m with
          | .mk q1 q2 q3 q4 q5 _ q7 q8 => .mk q1 q2 q3 q4 q5 .static q7 q8) := rfl
  rw [hstep]
  cases hrec : insertChildGo (p.length + 1) (bumpPrio root0) p p hd with
  | error err =>
    rw [hrec] at hiff
    simp only [Except.map]
    simp only [Except.error.injEq] at hiff ⊢
    exact hiff
  | ok t =>
    rw [hrec] at hiff
    simp only [Except.map]
    constructor
    · intro hcontra; exact Except.noConfusion hcontra
    · intro hs; exact Except.noConfusion (hiff.mpr hs)

/-- C4 counterexample: registering the pattern `/:` panics with
"wildcards must be named with a non-empty name", although none of the
claim's listed conditions holds for it: the tree is empty (so no handler
chain is bound anywhere and no child or wildcard-child conflict is
possible), the pattern starts with the separator, contains no catch-all,
and its single segment carries a single wildcard sigil.  The claim's
condition list omits the unnamed-wildcard panic, so its "in every other
case insertion succeeds" direction fails. -/
theorem c4_counterexample :
    engineAddRoute root0 ['/', ':'] [1] =
      .error "wildcards must be named with a non-empty name" ∧
    ['/', ':'].headD ' ' = '/' ∧ '*' ∉ ['/', ':'] ∧ ['/', ':'].count ':' = 1 :=
  ⟨rfl, rfl, by decide, by decide⟩

/-- C4 (amended): panic characterisation of registration.  For a single
registration into an empty tree the outcome agrees exactly with the
spec-side scan `specRegistrationPanic`: the registration panics with
message `e` iff the scan yields `e` — the conditions being, in scan order:
empty pattern (runtime index panic), missing leading separator, a segment
with a second wildcard sigil, an unnamed wildcard, a catch-all that is not
the final segment, a catch-all opening the scanned remainder (runtime index
panic), and a catch-all not immediately preceded by a separator — and it
succeeds iff the scan yields nothing (the scan never reports fuel
exhaustion).  The remaining listed conditions require a non-empty tree;
each is exhibited concretely: re-registering a bound pattern, a parameter
name differing from an existing wildcard child, a wildcard at a position
with existing static children, and a catch-all under a segment root whose
handle already ends with the separator. -/
theorem c4_panic_characterisation :
    (∀ (p : Str) (hd : Chain) (e : String),
       engineAddRoute root0 p hd = .error e ↔ specRegistrationPanic p = some e) ∧
    (∀ (p : Str) (hd : Chain),
       (engineAddRoute root0 p hd).isOk = true ↔ specRegistrationPanic p = none) ∧
    (∀ p : Str, specRegistrationPanic p ≠ some "insufficient fuel") ∧
    insertAll root0 [(['/', 'a'], [1]), (['/', 'a'], [2])] =
      .error "handlers are already registered for path \x27/a\x27" ∧
    insertAll root0 [(['/', 'u', '/', ':', 'i'], [1]), (['/', 'u', '/', ':', 'j'], [2])] =
      .error "conflict with wildcard route" ∧
    insertAll root0 [(['/', 'u', '/', 'a'], [1]), (['/', 'u', '/', ':', 'i'], [2])] =
      .error "wildcard segment conflicts with existing children" ∧
    insertAll root0 [(['/', 'f', '/'], [1]), (['/', 'f', '/', '*', 'x'], [2])] =
      .error "catch-all conflicts with existing handle for the path segment root" := by
  have hpart1 : ∀ (p : Str) (hd : Chain) (e : String),
      engineAddRoute root0 p hd = .error e ↔ specRegistrationPanic p = some e := by
    intro p hd e
    cases p with
    | nil => simp [engineAddRoute, specRegistrationPanic]
    | cons c cs =>
      by_cases hc : c = '/'
      · have h1 : engineAddRoute root0 (c :: cs) hd = addRoute root0 (c :: cs) hd := by
          simp [engineAddRoute, hc]
        have h2 : specRegistrationPanic (c :: cs) =
            specInsertPanicGo ((c :: cs).length + 1) (c :: cs) := by
          simp [specRegistrationPanic, hc]
        rw [h1, h2]
        exact addRoute_empty_spec (c :: cs) hd e
      · simp [engineAddRoute, specRegistrationPanic, hc]
  refine ⟨hpart1, ?_, ?_, rfl, rfl, rfl, rfl⟩
  · intro p hd
    cases hres : engineAddRoute root0 p hd with
    | ok t =>
      cases hspec : specRegistrationPanic p with
      | none => simp [Except.isOk, Except.toBool]
      | some err =>
        have hx := (hpart1 p hd err).mpr hspec
        rw [hres] at hx
        exact absurd hx (by simp)
    | error err =>
      have hs := (hpart1 p hd err).mp hres
      rw [hs]
      simp [Except.isOk, Except.toBool]
  · intro p
    cases p with
    | nil => decide
    | cons c cs =>
      by_cases hc : c = '/'
      · show specRegistrationPanic (c :: cs) ≠ some "insufficient fuel"
        have h2 : specRegistrationPanic (c :: cs) =
            specInsertPanicGo ((c :: cs).length + 1) (c :: cs) := by
          simp [specRegistrationPanic, hc]
        rw [h2]
        exact specInsertPanicGo_fuel ((c :: cs).length + 1) (c :: cs) (by omega)
      · have h2 : specRegistrationPanic (c :: cs) =
            some "path must begin with \x27/\x27" := by
          simp [specRegistrationPanic, hc]
        rw [h2]
        decide

/-- C4 witness: the characterisation applied at a concrete pattern carrying
a second sigil inside one segment. -/
theorem c4_witness :
    engineAddRoute root0 ['/', ':', 'a', '*', 'b'] [1] =
      .error "only one wildcard per path segment is allowed" :=
  (c4_panic_characterisation.1 ['/', ':', 'a', '*', 'b'] [1]
    "only one wildcard per path segment is allowed").mpr (by decide)

/-! ### Priority ordering (C8) -/

theorem bumpPrio_children (c : Node) : (bumpPrio c).children = c.children := by
  cases c
  rfl

end Drift
